import Mathlib

set_option maxHeartbeats 1000000
set_option maxRecDepth 10000

/-- JSON value tree, the shape produced by the JavaScript JSON.parse call inside
updateJsonByPath in src/src/features/modals/NodeModal/index.tsx. Numbers are
modelled as integers (the documents handled by the modal carry integral numbers). -/
inductive JValue where
  | null : JValue
  | bool (b : Bool) : JValue
  | num (n : Int) : JValue
  | str (s : String) : JValue
  | arr (elems : List JValue) : JValue
  | obj (fields : List (String × JValue)) : JValue

mutual
/-- Boolean structural equality on JSON values. -/
def jvBEq : JValue → JValue → Bool
  | .null, .null => true
  | .bool a, .bool b => a == b
  | .num a, .num b => a == b
  | .str a, .str b => a == b
  | .arr xs, .arr ys => jvBEqL xs ys
  | .obj fs, .obj gs => jvBEqF fs gs
  | _, _ => false
def jvBEqL : List JValue → List JValue → Bool
  | [], [] => true
  | x :: xs, y :: ys => jvBEq x y && jvBEqL xs ys
  | _, _ => false
def jvBEqF : List (String × JValue) → List (String × JValue) → Bool
  | [], [] => true
  | kv :: fs, kw :: gs => kv.1 == kw.1 && jvBEq kv.2 kw.2 && jvBEqF fs gs
  | _, _ => false
end

/-- One selector of a NodeData path: an object key or an array index
(the source's `string | number` selector type). -/
inductive JSelector where
  | str (s : String) : JSelector
  | num (n : Nat) : JSelector
deriving DecidableEq

/-- JavaScript property read on a plain object: first matching key. -/
def objGet : List (String × JValue) → String → Option JValue
  | [], _ => none
  | kv :: fs, k => if kv.1 = k then some kv.2 else objGet fs k

/-- JavaScript property write on a plain object: an existing key keeps its
position, a new key is appended (JS own-property insertion order). -/
def objSet : List (String × JValue) → String → JValue → List (String × JValue)
  | [], k, v => [(k, v)]
  | kv :: fs, k, v => if kv.1 = k then (kv.1, v) :: fs else kv :: objSet fs k v

/-- Reassemble a decimal digit list into its value. -/
def digitsVal (ds : List Char) : Nat := ds.foldl (fun a c => 10 * a + (c.toNat - 48)) 0

/-- A string that is the canonical decimal form of an array index, as JavaScript
uses to decide whether a string property of an array is an element index. -/
def canonIdx (s : String) : Option Nat :=
  if s.data ≠ [] ∧ s.data.all Char.isDigit then
    if Nat.repr (digitsVal s.data) = s then some (digitsVal s.data) else none
  else none

/-- JavaScript array element write `a[i] = v`: in-range indices are replaced,
an out-of-range write extends the array; the holes this creates read back as
null once the array is serialized by JSON.stringify, so they are modelled as
null directly. -/
def arrSetNat (xs : List JValue) (i : Nat) (v : JValue) : List JValue :=
  if i < xs.length then xs.set i v
  else xs ++ List.replicate (i - xs.length) JValue.null ++ [v]

/-- The property key a path selector denotes (JS ToString of the selector). -/
def selKey : JSelector → String
  | .str s => s
  | .num n => Nat.repr n

/-- Property read `current[key]` for a path selector, on containers; reads on
primitives and null yield no element of the decoded tree. -/
def jsGetSel : JValue → JSelector → Option JValue
  | .obj fs, sel => objGet fs (selKey sel)
  | .arr xs, .num i => xs[i]?
  | .arr xs, .str s => (canonIdx s).bind (fun i => xs[i]?)
  | _, _ => none

/-- Property write `current[key] = v` for a path selector on a container.
Writing a non-index string property of an array succeeds in JS but is invisible
to JSON.stringify, so the serialized array is unchanged. -/
def setJ : JValue → JSelector → JValue → JValue
  | .obj fs, sel, v => .obj (objSet fs (selKey sel) v)
  | .arr xs, .num i, v => .arr (arrSetNat xs i v)
  | .arr xs, .str s, v =>
      match canonIdx s with
      | some i => .arr (arrSetNat xs i v)
      | none => .arr xs
  | w, _, _ => w

/-- The JavaScript test `value === null` on a decoded value. -/
def isNull : JValue → Bool
  | .null => true
  | _ => false

/-- The source's leaf test `typeof value !== "object" || value === null`:
true exactly for null, booleans, numbers and strings. -/
def isLeaf : JValue → Bool
  | .null => true
  | .bool _ => true
  | .num _ => true
  | .str _ => true
  | .arr _ => false
  | .obj _ => false

/-- JavaScript Object.keys: own enumerable string keys. For a string value the
keys are the character indices (this is what Object.keys returns on a string
primitive); numbers, booleans and null-free cases yield no keys. -/
def jsKeys : JValue → List String
  | .obj fs => fs.map Prod.fst
  | .arr xs => (List.range xs.length).map Nat.repr
  | .str s => (List.range s.data.length).map Nat.repr
  | _ => []

/-- JavaScript property read by string key, as used for `editedFields[key]`:
on a string value an index key reads the one-character substring. -/
def jsGetKey : JValue → String → Option JValue
  | .obj fs, k => objGet fs k
  | .arr xs, k => (canonIdx k).bind (fun i => xs[i]?)
  | .str s, k => (canonIdx k).bind (fun i => (s.data[i]?).map (fun c => JValue.str (String.mk [c])))
  | _, _ => none

/-- One iteration of the merge loop: `if (typeof value !== "object" || value
=== null) mergedNode[key] = value`. -/
def mergeStep (edited : JValue) (acc : List (String × JValue)) (k : String) :
    List (String × JValue) :=
  match jsGetKey edited k with
  | some v => if isLeaf v then objSet acc k v else acc
  | none => acc

/-- The merge loop of updateJsonByPath: starting from a shallow copy of the
target object's fields, each key of editedFields whose value passes the leaf
test overwrites the corresponding field. -/
def mergeLeafKeys (target : List (String × JValue)) (edited : JValue) : List (String × JValue) :=
  (jsKeys edited).foldl (mergeStep edited) target

/-- Container synthesized for a missing key during the walk:
`typeof nextKey === "number" ? [] : ` an empty object. -/
def freshFor : JSelector → JValue
  | .num _ => .arr []
  | .str _ => .obj []

/-- The final write of updateJsonByPath once the walk has reached the parent of
the target slot. A null parent skips the write (`current !== null` guard); a
primitive parent makes the property assignment throw (strict-mode TypeError),
modelled as an error; a plain-object target is merged unless editedFields is
null, in which case Object.keys(null) throws; every other target is replaced. -/
def finalAssign (parent : JValue) (last : JSelector) (edited : JValue) : Except Unit JValue :=
  match parent with
  | .null => .ok .null
  | .obj fs =>
      match objGet fs (selKey last) with
      | some (.obj tf) =>
          if isNull edited then .error ()
          else .ok (.obj (objSet fs (selKey last) (.obj (mergeLeafKeys tf edited))))
      | _ => .ok (.obj (objSet fs (selKey last) edited))
  | .arr xs =>
      match jsGetSel (.arr xs) last with
      | some (.obj tf) =>
          if isNull edited then .error ()
          else .ok (setJ (.arr xs) last (.obj (mergeLeafKeys tf edited)))
      | _ => .ok (setJ (.arr xs) last edited)
  | _ => .error ()

/-- The navigation loop of updateJsonByPath followed by the final write. At
each non-final selector: a present key is descended into, a missing key first
receives a fresh container chosen by the next selector; the JS `in` operator
throws on null and primitives, modelled as an error. The mutation happens along
references into the decoded tree, modelled by rebuilding the spine. -/
def navUpdate (edited : JValue) : JValue → List JSelector → Except Unit JValue
  | current, [] => .ok current
  | current, [last] => finalAssign current last edited
  | current, sel :: next :: rest =>
    match current with
    | .obj fs =>
        (match objGet fs (selKey sel) with
         | some child =>
             (navUpdate edited child (next :: rest)).map
               (fun c2 => .obj (objSet fs (selKey sel) c2))
         | none =>
             (navUpdate edited (freshFor next) (next :: rest)).map
               (fun c2 => .obj (objSet fs (selKey sel) c2)))
    | .arr xs =>
        (match sel with
         | .num i =>
             (match xs[i]? with
              | some child =>
                  (navUpdate edited child (next :: rest)).map
                    (fun c2 => .arr (arrSetNat xs i c2))
              | none =>
                  (navUpdate edited (freshFor next) (next :: rest)).map
                    (fun c2 => .arr (arrSetNat xs i c2)))
         | .str s =>
             (match canonIdx s with
              | some i =>
                  (match xs[i]? with
                   | some child =>
                       (navUpdate edited child (next :: rest)).map
                         (fun c2 => .arr (arrSetNat xs i c2))
                   | none =>
                       (navUpdate edited (freshFor next) (next :: rest)).map
                         (fun c2 => .arr (arrSetNat xs i c2)))
              | none =>
                  (navUpdate edited (freshFor next) (next :: rest)).map
                    (fun _ => .arr xs)))
    | _ => .error ()

/-- Reading the value a path points at in a decoded tree (the slot the spec
calls the edit target), via the same property reads navigation performs. -/
def getAtPath : JValue → List JSelector → Option JValue
  | v, [] => some v
  | v, sel :: rest => (jsGetSel v sel).bind (fun c => getAtPath c rest)

/-- Replacing the subtree at an existing path (spine rebuild helper). -/
def setPath : JValue → List JSelector → JValue → JValue
  | _, [], w => w
  | v, sel :: rest, w =>
    match jsGetSel v sel with
    | some child => setJ v sel (setPath child rest w)
    | none => v

/-- The nested fresh structure synthesized when the walk keeps missing: each
numeric selector creates an array (nulls pad the skipped indices), each string
selector an object, with the edited value written at the end. -/
def buildNested : List JSelector → JValue → JValue
  | [], e => e
  | .num i :: rest, e => .arr (List.replicate i JValue.null ++ [buildNested rest e])
  | .str s :: rest, e => .obj [(s, buildNested rest e)]

/-- Whether a key occurs in a field list. -/
def hasKeyB (fs : List (String × JValue)) (k : String) : Bool :=
  fs.any (fun kw => kw.1 == k)

mutual
/-- Well-formedness of a decoded tree: object key lists are duplicate-free at
every level, which is exactly what JSON.parse produces. -/
def wfJ : JValue → Bool
  | .null => true
  | .bool _ => true
  | .num _ => true
  | .str _ => true
  | .arr xs => wfL xs
  | .obj fs => wfF fs
def wfL : List JValue → Bool
  | [] => true
  | v :: vs => wfJ v && wfL vs
def wfF : List (String × JValue) → Bool
  | [] => true
  | kv :: fs => !hasKeyB fs kv.1 && wfJ kv.2 && wfF fs
end

mutual
/-- Structural size, used to bound the parser fuel a serialized value needs. -/
def sizeJ : JValue → Nat
  | .null => 1
  | .bool _ => 1
  | .num _ => 1
  | .str _ => 1
  | .arr xs => 1 + sizeL xs
  | .obj fs => 1 + sizeF fs
def sizeL : List JValue → Nat
  | [] => 1
  | v :: vs => 1 + sizeJ v + sizeL vs
def sizeF : List (String × JValue) → Nat
  | [] => 1
  | kv :: fs => 1 + sizeJ kv.2 + sizeF fs
end

theorem sizeJ_pos (v : JValue) : 1 ≤ sizeJ v := by
  cases v <;> simp [sizeJ]

theorem sizeL_mem_lt {v : JValue} {xs : List JValue} (h : v ∈ xs) : sizeJ v < sizeL xs := by
  induction xs with
  | nil => cases h
  | cons x xs ih =>
      rcases List.mem_cons.mp h with rfl | h
      · simp [sizeL]; omega
      · have := ih h
        simp [sizeL]; omega

theorem sizeF_mem_lt {kv : String × JValue} {fs : List (String × JValue)} (h : kv ∈ fs) :
    sizeJ kv.2 < sizeF fs := by
  induction fs with
  | nil => cases h
  | cons kw fs ih =>
      rcases List.mem_cons.mp h with rfl | h
      · simp [sizeF]; omega
      · have := ih h
        simp [sizeF]; omega

theorem jvBEq_iff_aux : ∀ N, ∀ a : JValue, sizeJ a ≤ N → ∀ b, (jvBEq a b = true ↔ a = b) := by
  intro N
  induction N with
  | zero => intro a ha; have := sizeJ_pos a; omega
  | succ N ih =>
      intro a ha b
      cases a with
      | null => cases b <;> simp [jvBEq]
      | bool x => cases b <;> simp [jvBEq]
      | num x => cases b <;> simp [jvBEq]
      | str x => cases b <;> simp [jvBEq]
      | arr xs =>
          cases b with
          | arr ys =>
              simp only [jvBEq, JValue.arr.injEq]
              have hsz : sizeL xs ≤ N := by simp [sizeJ] at ha; omega
              clear ha
              induction xs generalizing ys with
              | nil => cases ys <;> simp [jvBEqL]
              | cons x xs ihx =>
                  cases ys with
                  | nil => simp [jvBEqL]
                  | cons y ys =>
                      have hx : sizeJ x ≤ N := by
                        have := @sizeL_mem_lt x (x :: xs) (List.mem_cons_self x xs)
                        omega
                      have hxs : sizeL xs ≤ N := by simp [sizeL] at hsz; omega
                      simp only [jvBEqL, Bool.and_eq_true, List.cons.injEq]
                      exact and_congr (ih x hx y) (ihx ys hxs)
          | null => simp [jvBEq]
          | bool y => simp [jvBEq]
          | num y => simp [jvBEq]
          | str y => simp [jvBEq]
          | obj gs => simp [jvBEq]
      | obj fs =>
          cases b with
          | obj gs =>
              simp only [jvBEq, JValue.obj.injEq]
              have hsz : sizeF fs ≤ N := by simp [sizeJ] at ha; omega
              clear ha
              induction fs generalizing gs with
              | nil => cases gs <;> simp [jvBEqF]
              | cons kv fs ihf =>
                  cases gs with
                  | nil => simp [jvBEqF]
                  | cons kw gs =>
                      have hx : sizeJ kv.2 ≤ N := by
                        have := @sizeF_mem_lt kv (kv :: fs) (List.mem_cons_self kv fs)
                        omega
                      have hfs : sizeF fs ≤ N := by simp [sizeF] at hsz; omega
                      simp only [jvBEqF, Bool.and_eq_true, List.cons.injEq, beq_iff_eq]
                      rw [Prod.ext_iff]
                      exact and_congr (and_congr Iff.rfl (ih kv.2 hx kw.2)) (ihf gs hfs)
          | null => simp [jvBEq]
          | bool y => simp [jvBEq]
          | num y => simp [jvBEq]
          | str y => simp [jvBEq]
          | arr ys => simp [jvBEq]

theorem jvBEq_iff (a b : JValue) : jvBEq a b = true ↔ a = b :=
  jvBEq_iff_aux (sizeJ a) a le_rfl b

instance : DecidableEq JValue := fun a b => decidable_of_iff _ (jvBEq_iff a b)

/-- The decimal digit character for a value below ten. -/
def digitChar (n : Nat) : Char := Char.ofNat (48 + n)

/-- Fueled digit expansion: each step strips the least significant digit. -/
def natToDigitsAux : Nat → Nat → List Char
  | 0, _ => []
  | fuel + 1, n =>
    if n < 10 then [digitChar n]
    else natToDigitsAux fuel (n / 10) ++ [digitChar (n % 10)]

/-- Decimal digits of a natural number, most significant first, as produced by
the JavaScript Number-to-string conversion JSON.stringify relies on. -/
def natToDigits (n : Nat) : List Char := natToDigitsAux (n + 1) n

/-- Decimal text of an integer. -/
def intChars (n : Int) : List Char :=
  if n < 0 then '-' :: natToDigits n.natAbs else natToDigits n.natAbs

/-- The lowercase hexadecimal digit character for a value below sixteen. -/
def hexDigitChar (n : Nat) : Char :=
  if n < 10 then digitChar n else Char.ofNat (87 + n)

/-- How JSON.stringify escapes one character inside a string literal. -/
def escapeChar (c : Char) : List Char :=
  if c = '"' then ['\\', '"']
  else if c = '\\' then ['\\', '\\']
  else if c = '\n' then ['\\', 'n']
  else if c = '\r' then ['\\', 'r']
  else if c = '\t' then ['\\', 't']
  else if c.toNat = 8 then ['\\', 'b']
  else if c.toNat = 12 then ['\\', 'f']
  else if c.toNat < 32 then ['\\', 'u', '0', '0', hexDigitChar (c.toNat / 16), hexDigitChar (c.toNat % 16)]
  else [c]

/-- Escaped body of a JSON string literal. -/
def escListChars : List Char → List Char
  | [] => []
  | c :: cs => escapeChar c ++ escListChars cs

/-- The opening curly bracket character. -/
def lbrace : Char := Char.ofNat 123

/-- The closing curly bracket character. -/
def rbrace : Char := Char.ofNat 125

/-- Indentation spaces. -/
def indentChars (n : Nat) : List Char := List.replicate n ' '

mutual
/-- Characters produced by `JSON.stringify(value, null, 2)` at nesting depth d. -/
def render : Nat → JValue → List Char
  | _, .null => ['n', 'u', 'l', 'l']
  | _, .bool true => ['t', 'r', 'u', 'e']
  | _, .bool false => ['f', 'a', 'l', 's', 'e']
  | _, .num n => intChars n
  | _, .str s => '"' :: (escListChars s.data ++ ['"'])
  | _, .arr [] => ['[', ']']
  | d, .arr (x :: xs) =>
      '[' :: '\n' :: (renderElems (d + 1) (x :: xs) ++ '\n' :: (indentChars (2 * d) ++ [']']))
  | _, .obj [] => [lbrace, rbrace]
  | d, .obj (kv :: fs) =>
      lbrace :: '\n' :: (renderMembers (d + 1) (kv :: fs) ++ '\n' :: (indentChars (2 * d) ++ [rbrace]))
/-- Array items, one per line, comma separated. -/
def renderElems : Nat → List JValue → List Char
  | _, [] => []
  | d, [x] => indentChars (2 * d) ++ render d x
  | d, x :: y :: xs =>
      indentChars (2 * d) ++ render d x ++ ',' :: '\n' :: renderElems d (y :: xs)
/-- Object members, one per line, comma separated, `"key": value` shape. -/
def renderMembers : Nat → List (String × JValue) → List Char
  | _, [] => []
  | d, [kv] =>
      indentChars (2 * d) ++ '"' :: (escListChars kv.1.data ++ '"' :: ':' :: ' ' :: render d kv.2)
  | d, kv :: kw :: fs =>
      indentChars (2 * d) ++ '"' :: (escListChars kv.1.data ++ '"' :: ':' :: ' ' :: render d kv.2)
        ++ ',' :: '\n' :: renderMembers d (kw :: fs)
end

/-- `JSON.stringify(value, null, 2)` as the source calls it. -/
def stringify2 (v : JValue) : String := String.mk (render 0 v)

/-- JSON whitespace. -/
def isWsChar (c : Char) : Bool := c == ' ' || c == '\n' || c == '\t' || c == '\r'

/-- Skip leading JSON whitespace. -/
def skipWs : List Char → List Char
  | [] => []
  | c :: cs => if isWsChar c then skipWs cs else c :: cs

/-- Value of one hexadecimal digit character. -/
def hexVal (c : Char) : Option Nat :=
  if c.isDigit then some (c.toNat - 48)
  else if 'a' ≤ c ∧ c ≤ 'f' then some (c.toNat - 87)
  else if 'A' ≤ c ∧ c ≤ 'F' then some (c.toNat - 55)
  else none

/-- Body of a JSON string literal after the opening quote: characters up to the
closing quote with the standard escape sequences decoded. -/
def parseStringBody : List Char → Option (List Char × List Char)
  | [] => none
  | c :: cs =>
    if c = '"' then some ([], cs)
    else if c = '\\' then
      match cs with
      | [] => none
      | e :: cs2 =>
        if e = '"' then (parseStringBody cs2).map (fun p => ('"' :: p.1, p.2))
        else if e = '\\' then (parseStringBody cs2).map (fun p => ('\\' :: p.1, p.2))
        else if e = '/' then (parseStringBody cs2).map (fun p => ('/' :: p.1, p.2))
        else if e = 'n' then (parseStringBody cs2).map (fun p => ('\n' :: p.1, p.2))
        else if e = 'r' then (parseStringBody cs2).map (fun p => ('\r' :: p.1, p.2))
        else if e = 't' then (parseStringBody cs2).map (fun p => ('\t' :: p.1, p.2))
        else if e = 'b' then (parseStringBody cs2).map (fun p => (Char.ofNat 8 :: p.1, p.2))
        else if e = 'f' then (parseStringBody cs2).map (fun p => (Char.ofNat 12 :: p.1, p.2))
        else if e = 'u' then
          match cs2 with
          | h1 :: h2 :: h3 :: h4 :: cs3 =>
            match hexVal h1, hexVal h2, hexVal h3, hexVal h4 with
            | some a, some b, some c2, some d2 =>
                (parseStringBody cs3).map
                  (fun p => (Char.ofNat (a * 4096 + b * 256 + c2 * 16 + d2) :: p.1, p.2))
            | _, _, _, _ => none
          | _ => none
        else none
    else (parseStringBody cs).map (fun p => (c :: p.1, p.2))

/-- A maximal run of decimal digits and its value. -/
def parseNatNum (cs : List Char) : Option (Nat × List Char) :=
  let ds := cs.takeWhile Char.isDigit
  if ds.isEmpty then none else some (digitsVal ds, cs.dropWhile Char.isDigit)

/-- How JavaScript object literals and JSON.parse accumulate members: each
member assignment overwrites an earlier key in place, otherwise appends. -/
def dedupFields (l : List (String × JValue)) : List (String × JValue) :=
  l.foldl (fun acc kv => objSet acc kv.1 kv.2) []

mutual
/-- Fueled JSON value parser (JSON.parse): leading whitespace is skipped, then
a literal, string, number, array or object is read. -/
def parseVal : Nat → List Char → Option (JValue × List Char)
  | 0, _ => none
  | f + 1, input =>
    match skipWs input with
    | [] => none
    | c :: cs =>
      if c = 'n' then
        match cs with
        | 'u' :: 'l' :: 'l' :: r => some (.null, r)
        | _ => none
      else if c = 't' then
        match cs with
        | 'r' :: 'u' :: 'e' :: r => some (.bool true, r)
        | _ => none
      else if c = 'f' then
        match cs with
        | 'a' :: 'l' :: 's' :: 'e' :: r => some (.bool false, r)
        | _ => none
      else if c = '"' then
        (parseStringBody cs).map (fun p => (.str (String.mk p.1), p.2))
      else if c = '[' then
        match skipWs cs with
        | [] => none
        | c2 :: r2 =>
            if c2 = ']' then some (.arr [], r2)
            else (parseElems f cs).map (fun p => (.arr p.1, p.2))
      else if c = lbrace then
        match skipWs cs with
        | [] => none
        | c2 :: r2 =>
            if c2 = rbrace then some (.obj [], r2)
            else (parseMembers f cs).map (fun p => (.obj (dedupFields p.1), p.2))
      else if c = '-' then
        (parseNatNum cs).map (fun p => (.num (-(p.1 : Int)), p.2))
      else if c.isDigit then
        (parseNatNum (c :: cs)).map (fun p => (.num (p.1 : Int), p.2))
      else none
/-- Comma separated values up to the closing square bracket. -/
def parseElems : Nat → List Char → Option (List JValue × List Char)
  | 0, _ => none
  | f + 1, input =>
    match parseVal f input with
    | none => none
    | some (v, r) =>
      match skipWs r with
      | [] => none
      | c :: r2 =>
          if c = ',' then (parseElems f r2).map (fun p => (v :: p.1, p.2))
          else if c = ']' then some ([v], r2)
          else none
/-- Comma separated `"key": value` members up to the closing curly bracket. -/
def parseMembers : Nat → List Char → Option (List (String × JValue) × List Char)
  | 0, _ => none
  | f + 1, input =>
    match skipWs input with
    | [] => none
    | c :: cs =>
      if c = '"' then
        match parseStringBody cs with
        | none => none
        | some (k, r1) =>
          match skipWs r1 with
          | [] => none
          | c2 :: r2 =>
            if c2 = ':' then
              match parseVal f r2 with
              | none => none
              | some (v, r3) =>
                match skipWs r3 with
                | [] => none
                | c3 :: r4 =>
                    if c3 = ',' then
                      (parseMembers f r4).map (fun p => ((String.mk k, v) :: p.1, p.2))
                    else if c3 = rbrace then some ([(String.mk k, v)], r4)
                    else none
            else none
      else none
end

/-- `JSON.parse` on a whole document string: one value, with only whitespace
allowed after it. The fuel is generous: a successful parse consumes at least
one character per recursion level. -/
def parseJson (s : String) : Option JValue :=
  match parseVal (s.data.length + 2) s.data with
  | some (v, r) => if (skipWs r).isEmpty then some v else none
  | none => none

/-- How handleSave builds editedFields: JSON.parse of the edited text when it
succeeds, otherwise the raw text as a string value. -/
def parseEditedValue (editedValue : String) : JValue :=
  match parseJson editedValue with
  | some v => v
  | none => .str editedValue

/-- The source's updateJsonByPath: parse the document (returning it unchanged
on failure), replace the whole tree when the path is empty, otherwise walk to
the parent of the target slot and merge or replace there; any JavaScript
exception on the way is caught and yields the original text. -/
def updateJsonByPath (json : String) (path : List JSelector) (editedFields : JValue) : String :=
  match parseJson json with
  | none => json
  | some obj =>
    if path.isEmpty then stringify2 editedFields
    else
      match navUpdate editedFields obj path with
      | .ok obj2 => stringify2 obj2
      | .error _ => json

/-- One flattened row of a selected node (NodeData text entry): optional key,
value, and the type tag the graph assigns. -/
structure FieldRow where
  key : Option String
  value : JValue
  type : String

/-- JavaScript truthiness of `!row.key`: missing key or empty-string key. -/
def keyFalsy : Option String → Bool
  | none => true
  | some s => s == ""

mutual
/-- JavaScript string conversion `${value}` of a decoded JSON value. -/
def jsToString : JValue → String
  | .null => "null"
  | .bool true => "true"
  | .bool false => "false"
  | .num n => String.mk (intChars n)
  | .str s => s
  | .arr xs => String.intercalate "," (jsToStrElems xs)
  | .obj _ => "[object Object]"
/-- Array elements under JavaScript Array.prototype.toString: null becomes
the empty string, the rest convert recursively. -/
def jsToStrElems : List JValue → List String
  | [] => []
  | v :: vs => (match v with | .null => "" | w => jsToString w) :: jsToStrElems vs
end

/-- One iteration of normalizeNodeData's forEach: a row whose type is neither
"array" nor "object" and whose key is truthy is written into the object. -/
def rowStep (acc : List (String × JValue)) (r : FieldRow) : List (String × JValue) :=
  if r.type = "array" ∨ r.type = "object" then acc
  else
    match r.key with
    | some k => if k = "" then acc else objSet acc k r.value
    | none => acc

/-- The member accumulation loop of normalizeNodeData. -/
def buildObjFields (rows : List FieldRow) : List (String × JValue) :=
  rows.foldl rowStep []

/-- The source's normalizeNodeData: empty row list gives an empty object text,
a lone row with a falsy key gives the bare string form of its value, otherwise
the scalar-typed keyed rows are collected into an object and pretty printed. -/
def normalizeNodeData (nodeRows : List FieldRow) : String :=
  match nodeRows with
  | [] => "{}"
  | r :: rs =>
    if rs.isEmpty && keyFalsy r.key then jsToString r.value
    else stringify2 (.obj (buildObjFields (r :: rs)))

/-- One rendered selector of jsonPathToString: numbers bare, strings quoted. -/
def segStr : JSelector → String
  | .num n => Nat.repr n
  | .str s => "\"" ++ s ++ "\""

/-- The source's jsonPathToString: `$` for a missing or empty path, otherwise
`$` with every selector bracketed. -/
def jsonPathToString (path : List JSelector) : String :=
  if path.length = 0 then "$"
  else "$[" ++ String.intercalate "][" (path.map segStr) ++ "]"

/-- Modelled from the spec: the type tag the graph collaborator attaches to a
node's direct child (the collaborator that flattens nodes into FieldRow lists
lives outside src/); scalar values carry their scalar type name, containers
carry "array" or "object" marker tags. -/
def scalarTypeName : JValue → String
  | .null => "null"
  | .bool _ => "boolean"
  | .num _ => "number"
  | .str _ => "string"
  | .arr _ => "array"
  | .obj _ => "object"

/-- Modelled from the spec: flattening one object node into FieldRow values,
one row per direct child in insertion order; container children appear only as
array/object marker rows (their content stays in the document). -/
def rowsOfObject (fields : List (String × JValue)) : List FieldRow :=
  fields.map (fun kv => ⟨some kv.1, kv.2, scalarTypeName kv.2⟩)

/-- Modelled from the spec: the FieldRow list of a re-read node; a FieldRow
list of length one whose single entry has no key denotes a scalar-valued node. -/
def rowsOfValue : JValue → List FieldRow
  | .obj fs => rowsOfObject fs
  | v => [⟨none, v, scalarTypeName v⟩]

/-- The guard of normalizeNodeData's member loop on one row: a type other than
"array" and "object", and a truthy key. -/
def leafRow (r : FieldRow) : Bool :=
  !(r.type == "array" || r.type == "object") && !keyFalsy r.key

/-- The mapping entry one row contributes: its key and its value. -/
def rowEntry (r : FieldRow) : String × JValue := (r.key.getD "", r.value)

theorem objGet_objSet_self (fs : List (String × JValue)) (k : String) (v : JValue) :
    objGet (objSet fs k v) k = some v := by
  induction fs with
  | nil => simp [objSet, objGet]
  | cons kv fs ih =>
      by_cases h : kv.1 = k <;> simp [objSet, objGet, h, ih]

theorem objGet_objSet_ne (fs : List (String × JValue)) {k k' : String} (v : JValue)
    (h : k' ≠ k) : objGet (objSet fs k v) k' = objGet fs k' := by
  have hnk : ¬ k = k' := fun hh => h hh.symm
  induction fs with
  | nil => simp [objSet, objGet, hnk]
  | cons kv fs ih =>
      by_cases hk : kv.1 = k
      · simp [objSet, objGet, hk, hnk]
      · by_cases hk' : kv.1 = k' <;> simp [objSet, objGet, hk, hk', h, ih]

theorem objSet_same {fs : List (String × JValue)} {k : String} {v : JValue}
    (h : objGet fs k = some v) : objSet fs k v = fs := by
  induction fs with
  | nil => simp [objGet] at h
  | cons kv fs ih =>
      obtain ⟨k0, v0⟩ := kv
      by_cases hk : k0 = k
      · simp [objGet, hk] at h
        simp [objSet, hk, h]
      · simp [objGet, hk] at h
        simp [objSet, hk, ih h]

theorem objGet_mem_keys {fs : List (String × JValue)} {k : String} {v : JValue}
    (h : objGet fs k = some v) : k ∈ fs.map Prod.fst := by
  induction fs with
  | nil => simp [objGet] at h
  | cons kv fs ih =>
      by_cases hk : kv.1 = k
      · simp [hk]
      · simp [objGet, hk] at h
        simp [ih h]

theorem getq_lt {xs : List JValue} {i : Nat} {x : JValue} (h : xs[i]? = some x) :
    i < xs.length := by
  induction xs generalizing i with
  | nil => simp at h
  | cons y ys ih =>
      cases i with
      | zero => simp
      | succ j =>
          simp only [List.getElem?_cons_succ] at h
          have := ih h
          simp
          omega

theorem getq_set_self : ∀ (xs : List JValue) (i : Nat) (v : JValue), i < xs.length →
    (xs.set i v)[i]? = some v := by
  intro xs
  induction xs with
  | nil => intro i v h; simp at h
  | cons y ys ih =>
      intro i v h
      cases i with
      | zero => simp
      | succ j =>
          simp only [List.set, List.getElem?_cons_succ]
          exact ih j v (by simp at h; omega)

theorem set_same {xs : List JValue} {i : Nat} {x : JValue} (h : xs[i]? = some x) :
    xs.set i x = xs := by
  induction xs generalizing i with
  | nil => simp at h
  | cons y ys ih =>
      cases i with
      | zero => simp at h; simp [h]
      | succ j =>
          simp only [List.getElem?_cons_succ] at h
          simp [List.set, ih h]

theorem arrSetNat_get_self (xs : List JValue) (i : Nat) (v : JValue) :
    (arrSetNat xs i v)[i]? = some v := by
  by_cases h : i < xs.length
  · simp [arrSetNat, h, getq_set_self]
  · simp only [arrSetNat, if_neg h]
    rw [List.append_assoc, List.getElem?_append_right (by omega)]
    have hlen : (List.replicate (i - xs.length) JValue.null).length = i - xs.length := by simp
    rw [List.getElem?_append_right (by omega)]
    simp

theorem jsGetSel_setJ {v : JValue} {sel : JSelector} {c : JValue}
    (h : jsGetSel v sel = some c) (u : JValue) : jsGetSel (setJ v sel u) sel = some u := by
  cases v with
  | obj fs => simp [jsGetSel, setJ, objGet_objSet_self]
  | arr xs =>
      cases sel with
      | num i => simp [jsGetSel, setJ, arrSetNat_get_self]
      | str s =>
          simp only [jsGetSel] at h
          cases hc : canonIdx s with
          | none => rw [hc] at h; simp at h
          | some i => simp [jsGetSel, setJ, hc, arrSetNat_get_self]
  | null => simp [jsGetSel] at h
  | bool b => simp [jsGetSel] at h
  | num n => simp [jsGetSel] at h
  | str s => simp [jsGetSel] at h

theorem setJ_same {v : JValue} {sel : JSelector} {c : JValue}
    (h : jsGetSel v sel = some c) : setJ v sel c = v := by
  cases v with
  | obj fs => simp only [jsGetSel] at h; simp [setJ, objSet_same h]
  | arr xs =>
      cases sel with
      | num i =>
          simp only [jsGetSel] at h
          simp [setJ, arrSetNat, getq_lt h, set_same h]
      | str s =>
          simp only [jsGetSel] at h
          cases hc : canonIdx s with
          | none => rw [hc] at h; simp at h
          | some i =>
              rw [hc] at h
              simp only [Option.some_bind] at h
              simp [setJ, hc, arrSetNat, getq_lt h, set_same h]
  | null => simp [jsGetSel] at h
  | bool b => simp [jsGetSel] at h
  | num n => simp [jsGetSel] at h
  | str s => simp [jsGetSel] at h

theorem getAtPath_append (v : JValue) (l1 l2 : List JSelector) :
    getAtPath v (l1 ++ l2) = (getAtPath v l1).bind (fun w => getAtPath w l2) := by
  induction l1 generalizing v with
  | nil => simp [getAtPath]
  | cons sel l1 ih =>
      simp only [List.cons_append, getAtPath]
      cases jsGetSel v sel with
      | none => simp
      | some c => simp [ih]

theorem navUpdate_append (e : JValue) :
    ∀ (pre : List JSelector) (v w : JValue) (rest : List JSelector),
      getAtPath v pre = some w → rest ≠ [] →
      navUpdate e v (pre ++ rest) =
        (navUpdate e w rest).map (fun w2 => setPath v pre w2) := by
  intro pre
  induction pre with
  | nil =>
      intro v w rest h _
      simp only [getAtPath] at h
      cases h
      simp only [List.nil_append]
      cases hnav : navUpdate e v rest <;> simp [hnav, Except.map, setPath]
  | cons sel pre ih =>
      intro v w rest h hrest
      simp only [getAtPath] at h
      cases hget : jsGetSel v sel with
      | none => rw [hget] at h; simp at h
      | some c =>
          rw [hget] at h
          simp only [Option.some_bind] at h
          have hne : pre ++ rest ≠ [] := by
            intro hh
            exact hrest (List.append_eq_nil.mp hh).2
          cases hpr : pre ++ rest with
          | nil => exact absurd hpr hne
          | cons next rest2 =>
              have hrec : navUpdate e c (next :: rest2) =
                  (navUpdate e w rest).map (fun w2 => setPath c pre w2) := by
                rw [← hpr]; exact ih c w rest h hrest
              cases v with
              | obj fs =>
                  simp only [jsGetSel] at hget
                  simp only [List.cons_append, hpr, navUpdate, hget, hrec, setPath,
                    jsGetSel, hget]
                  cases navUpdate e w rest <;> simp [Except.map, setJ]
              | arr xs =>
                  cases sel with
                  | num i =>
                      simp only [jsGetSel] at hget
                      simp only [List.cons_append, hpr, navUpdate, hget, hrec, setPath,
                        jsGetSel, hget]
                      cases navUpdate e w rest <;> simp [Except.map, setJ]
                  | str s =>
                      simp only [jsGetSel] at hget
                      cases hc : canonIdx s with
                      | none => rw [hc] at hget; simp at hget
                      | some i =>
                          rw [hc] at hget
                          simp only [Option.some_bind] at hget
                          simp only [List.cons_append, hpr, navUpdate, hc, hget, hrec,
                            setPath, jsGetSel]
                          cases navUpdate e w rest <;> simp [Except.map, setJ, hc, hget]
              | null => simp [jsGetSel] at hget
              | bool b => simp [jsGetSel] at hget
              | num n => simp [jsGetSel] at hget
              | str s2 => simp [jsGetSel] at hget

theorem getAtPath_setPath :
    ∀ (pre : List JSelector) (v w x : JValue), getAtPath v pre = some w →
      getAtPath (setPath v pre x) pre = some x := by
  intro pre
  induction pre with
  | nil => intro v w x _; simp [getAtPath, setPath]
  | cons sel pre ih =>
      intro v w x h
      simp only [getAtPath] at h
      cases hget : jsGetSel v sel with
      | none => rw [hget] at h; simp at h
      | some c =>
          rw [hget] at h
          simp only [Option.some_bind] at h
          simp only [setPath, hget]
          simp only [getAtPath, jsGetSel_setJ hget, Option.some_bind]
          exact ih c w x h

theorem setPath_same :
    ∀ (pre : List JSelector) (v w : JValue), getAtPath v pre = some w →
      setPath v pre w = v := by
  intro pre
  induction pre with
  | nil =>
      intro v w h
      simp only [getAtPath] at h
      cases h
      simp [setPath]
  | cons sel pre ih =>
      intro v w h
      simp only [getAtPath] at h
      cases hget : jsGetSel v sel with
      | none => rw [hget] at h; simp at h
      | some c =>
          rw [hget] at h
          simp only [Option.some_bind] at h
          simp only [setPath, hget, ih c w h]
          exact setJ_same hget

theorem mem_keys_objGet_isSome {fs : List (String × JValue)} {k : String}
    (h : k ∈ fs.map Prod.fst) : ∃ v, objGet fs k = some v := by
  induction fs with
  | nil => simp at h
  | cons kv fs ih =>
      by_cases hk : kv.1 = k
      · exact ⟨kv.2, by simp [objGet, hk]⟩
      · simp only [List.map_cons, List.mem_cons] at h
        rcases h with h | h
        · exact absurd h.symm hk
        · obtain ⟨v, hv⟩ := ih h
          exact ⟨v, by simp [objGet, hk, hv]⟩

theorem mergeStep_other {e : JValue} {acc : List (String × JValue)} {k k0 : String}
    (h : k0 ≠ k) : objGet (mergeStep e acc k) k0 = objGet acc k0 := by
  unfold mergeStep
  cases jsGetKey e k with
  | none => rfl
  | some v =>
      by_cases hl : isLeaf v
      · simp [hl, objGet_objSet_ne _ _ h]
      · simp [hl]

theorem mergeFold_not_mem (e : JValue) :
    ∀ (ks : List String) (acc : List (String × JValue)) (k0 : String), k0 ∉ ks →
      objGet (ks.foldl (mergeStep e) acc) k0 = objGet acc k0 := by
  intro ks
  induction ks with
  | nil => intro acc k0 _; rfl
  | cons k ks ih =>
      intro acc k0 h
      simp only [List.mem_cons, not_or] at h
      simp only [List.foldl_cons]
      rw [ih _ _ h.2, mergeStep_other h.1]

theorem mergeFold_skip (e : JValue) {k0 : String}
    (hskip : jsGetKey e k0 = none ∨ ∃ v, jsGetKey e k0 = some v ∧ isLeaf v = false) :
    ∀ (ks : List String) (acc : List (String × JValue)),
      objGet (ks.foldl (mergeStep e) acc) k0 = objGet acc k0 := by
  intro ks
  induction ks with
  | nil => intro acc; rfl
  | cons k ks ih =>
      intro acc
      simp only [List.foldl_cons]
      rw [ih]
      by_cases hk : k0 = k
      · subst hk
        rcases hskip with h | ⟨v, hv, hl⟩
        · simp [mergeStep, h]
        · simp [mergeStep, hv, hl]
      · exact mergeStep_other hk

theorem mergeFold_write (e : JValue) {k0 : String} {v : JValue}
    (hv : jsGetKey e k0 = some v) (hleaf : isLeaf v = true) :
    ∀ (ks : List String) (acc : List (String × JValue)), k0 ∈ ks →
      objGet (ks.foldl (mergeStep e) acc) k0 = some v := by
  intro ks
  induction ks with
  | nil => intro acc h; simp at h
  | cons k ks ih =>
      intro acc hmem
      simp only [List.foldl_cons]
      by_cases hin : k0 ∈ ks
      · exact ih _ hin
      · have hk : k0 = k := by
          rcases List.mem_cons.mp hmem with h | h
          · exact h
          · exact absurd h hin
        subst hk
        rw [mergeFold_not_mem e ks _ k0 hin]
        simp [mergeStep, hv, hleaf, objGet_objSet_self]

theorem navUpdate_fresh (e : JValue) :
    ∀ (rest : List JSelector) (sel : JSelector),
      navUpdate e (freshFor sel) (sel :: rest) = .ok (buildNested (sel :: rest) e) := by
  intro rest
  induction rest with
  | nil =>
      intro sel
      cases sel with
      | num i =>
          simp [navUpdate, freshFor, finalAssign, jsGetSel, buildNested, setJ, arrSetNat]
      | str s =>
          simp [navUpdate, freshFor, finalAssign, objGet, buildNested, objSet, selKey]
  | cons next rest ih =>
      intro sel
      have hih := ih next
      cases sel with
      | num i =>
          have hnil : (([] : List JValue))[i]? = none := by simp
          show navUpdate e (.arr []) (.num i :: next :: rest) = _
          simp only [navUpdate, hnil]
          rw [hih]
          simp [Except.map, buildNested, arrSetNat]
      | str s =>
          have hnil : objGet [] (selKey (.str s)) = none := rfl
          show navUpdate e (.obj []) (.str s :: next :: rest) = _
          simp only [navUpdate, hnil]
          rw [hih]
          simp [Except.map, buildNested, objSet, selKey]

theorem navUpdate_miss_obj (e : JValue) {fs : List (String × JValue)} {sel : JSelector}
    {rest : List JSelector} (hrest : rest ≠ []) (hmiss : objGet fs (selKey sel) = none) :
    navUpdate e (.obj fs) (sel :: rest) =
      .ok (.obj (objSet fs (selKey sel) (buildNested rest e))) := by
  cases rest with
  | nil => exact absurd rfl hrest
  | cons next rest2 =>
      simp [navUpdate, hmiss, navUpdate_fresh e rest2 next, Except.map]

theorem navUpdate_miss_arr (e : JValue) {xs : List JValue} {i : Nat}
    {rest : List JSelector} (hrest : rest ≠ []) (hmiss : xs[i]? = none) :
    navUpdate e (.arr xs) (.num i :: rest) =
      .ok (.arr (arrSetNat xs i (buildNested rest e))) := by
  cases rest with
  | nil => exact absurd rfl hrest
  | cons next rest2 =>
      simp [navUpdate, hmiss, navUpdate_fresh e rest2 next, Except.map]

/-- One bracketed selector per list entry, in order: numbers bare, strings
double quoted. -/
def bracketSegs : List JSelector → String
  | [] => ""
  | sel :: rest => "[" ++ segStr sel ++ "]" ++ bracketSegs rest

theorem intercalate_go_brackets :
    ∀ (xs : List JSelector) (acc : String),
      String.intercalate.go acc "][" (xs.map segStr) ++ "]" = acc ++ "]" ++ bracketSegs xs := by
  intro xs
  induction xs with
  | nil => intro acc; simp [String.intercalate.go, bracketSegs]
  | cons y ys ih =>
      intro acc
      simp only [List.map_cons, String.intercalate.go]
      rw [ih]
      simp only [bracketSegs, String.append_assoc]
      rfl

theorem rowStep_no_empty {acc : List (String × JValue)} {r : FieldRow}
    (h : objGet acc "" = none) : objGet (rowStep acc r) "" = none := by
  unfold rowStep
  by_cases ht : r.type = "array" ∨ r.type = "object"
  · simp [ht, h]
  · simp only [if_neg ht]
    cases hk : r.key with
    | none => exact h
    | some k =>
        by_cases hke : k = ""
        · simp [hke, h]
        · simp only [if_neg hke]
          rw [objGet_objSet_ne _ _ (fun hh => hke hh.symm)]
          exact h

theorem buildFold_no_empty :
    ∀ (rows : List FieldRow) (acc : List (String × JValue)), objGet acc "" = none →
      objGet (rows.foldl rowStep acc) "" = none := by
  intro rows
  induction rows with
  | nil => intro acc h; exact h
  | cons r rows ih =>
      intro acc h
      simp only [List.foldl_cons]
      exact ih _ (rowStep_no_empty h)

/-- Claim C2: for every input string that our model of JSON.parse rejects, and
for every path and editedFields value, updateJsonByPath returns the input text
unchanged; the total Lean function also witnesses that no exception escapes. -/
theorem claim_C2 (s : String) (p : List JSelector) (e : JValue)
    (h : parseJson s = none) : updateJsonByPath s p e = s := by
  simp [updateJsonByPath, h]

theorem claim_C2_witness :
    parseJson "oops" = none ∧
    updateJsonByPath "oops" [.str "a"] (.obj [("v", .num 1)]) = "oops" :=
  ⟨by decide, claim_C2 "oops" [.str "a"] (.obj [("v", .num 1)]) (by decide)⟩

/-- Claim C6: for every parseable document text and every editedFields value,
an empty path makes updateJsonByPath return the two-space serialization of
editedFields alone, independent of the document's content; the spec's concrete
example is included. -/
theorem claim_C6 :
    (∀ (s : String) (t e : JValue), parseJson s = some t →
        updateJsonByPath s [] e = stringify2 e) ∧
    updateJsonByPath (stringify2 (.obj [("a", .num 1)])) [] (.obj [("b", .num 2)]) =
      stringify2 (.obj [("b", .num 2)]) := by
  constructor
  · intro s t e h
    simp [updateJsonByPath, h]
  · decide

theorem claim_C6_witness :
    updateJsonByPath (stringify2 (.obj [("a", .num 1)])) [] (.obj [("c", .bool true)]) =
      stringify2 (.obj [("c", .bool true)]) :=
  claim_C6.1 _ (.obj [("a", .num 1)]) _ (by decide)

/-- Claim C8: jsonPathToString renders an empty path as the bare dollar sign
and a non-empty path as the dollar sign followed by one bracketed segment per
selector in order, numbers bare and strings double quoted; the spec's example
path is rendered accordingly. -/
theorem claim_C8 :
    jsonPathToString [] = "$" ∧
    (∀ p : List JSelector, p ≠ [] → jsonPathToString p = "$" ++ bracketSegs p) ∧
    jsonPathToString [.str "customer", .num 0, .str "id"] = "$[\"customer\"][0][\"id\"]" := by
  refine ⟨rfl, ?_, by decide⟩
  intro p hp
  cases p with
  | nil => exact absurd rfl hp
  | cons x xs =>
      simp only [jsonPathToString, List.length_cons, Nat.succ_ne_zero, if_false,
        List.map_cons, String.intercalate]
      rw [String.append_assoc, intercalate_go_brackets]
      simp only [bracketSegs, String.append_assoc]
      rfl

theorem claim_C8_witness :
    jsonPathToString [.num 3, .str "k"] = "$" ++ bracketSegs [.num 3, .str "k"] :=
  claim_C8.2.1 [.num 3, .str "k"] (by simp)

/-- Claim C10: normalizeNodeData treats an empty-string key like a missing
key: a lone row keyed by the empty string is rendered as the bare string form
of its value, exactly as a lone keyless row is, and the object built for
longer row lists never contains an empty-string key. -/
theorem claim_C10 :
    (∀ (v : JValue) (ty : String),
        normalizeNodeData [⟨some "", v, ty⟩] = jsToString v) ∧
    (∀ (v : JValue) (ty ty2 : String),
        normalizeNodeData [⟨some "", v, ty⟩] = normalizeNodeData [⟨none, v, ty2⟩]) ∧
    (∀ rows : List FieldRow, objGet (buildObjFields rows) "" = none) := by
  refine ⟨fun v ty => rfl, fun v ty ty2 => rfl, fun rows => ?_⟩
  exact buildFold_no_empty rows [] rfl

/-- Claim C9: when a selector before the last one resolves to an existing null
value, updateJsonByPath changes nothing: if the null sits right before the
final selector the unchanged tree is re-serialized, and any deeper walk aborts
so the original text is returned. -/
theorem claim_C9 (s : String) (t : JValue) (pre suf : List JSelector) (e : JValue)
    (hparse : parseJson s = some t) (hpre : pre ≠ []) (hsuf : suf ≠ [])
    (hnull : getAtPath t pre = some .null) :
    updateJsonByPath s (pre ++ suf) e = (if suf.length = 1 then stringify2 t else s) := by
  cases pre with
  | nil => exact absurd rfl hpre
  | cons p0 pre' =>
      have hL1 := navUpdate_append e (p0 :: pre') t .null suf hnull hsuf
      cases suf with
      | nil => exact absurd rfl hsuf
      | cons a suf2 =>
          cases suf2 with
          | nil =>
              have hnav : navUpdate e JValue.null [a] = .ok .null := rfl
              rw [hnav] at hL1
              have hsp : setPath t (p0 :: pre') .null = t :=
                setPath_same (p0 :: pre') t .null hnull
              simp only [Except.map, hsp] at hL1
              simp only [List.cons_append] at hL1
              simp only [updateJsonByPath, hparse, List.cons_append, List.isEmpty_cons,
                Bool.false_eq_true, if_false]
              rw [hL1]
              simp
          | cons b suf3 =>
              have hnav : navUpdate e JValue.null (a :: b :: suf3) = .error () := rfl
              rw [hnav] at hL1
              simp only [Except.map] at hL1
              simp only [List.cons_append] at hL1
              simp only [updateJsonByPath, hparse, List.cons_append, List.isEmpty_cons,
                Bool.false_eq_true, if_false]
              rw [hL1]
              simp

theorem claim_C9_witness :
    updateJsonByPath (stringify2 (.obj [("a", JValue.null)])) ([.str "a"] ++ [.str "b"])
        (.num 7) =
      (if ([JSelector.str "b"] : List JSelector).length = 1
        then stringify2 (.obj [("a", JValue.null)])
        else stringify2 (.obj [("a", JValue.null)])) :=
  claim_C9 _ (.obj [("a", JValue.null)]) [.str "a"] [.str "b"] (.num 7)
    (by decide) (by simp) (by simp) (by decide)

theorem finalAssign_merge {parent : JValue} {last : JSelector} {tf : List (String × JValue)}
    (h : jsGetSel parent last = some (.obj tf)) {edited : JValue}
    (hnn : isNull edited = false) :
    finalAssign parent last edited = .ok (setJ parent last (.obj (mergeLeafKeys tf edited))) := by
  cases parent with
  | obj fs =>
      simp only [jsGetSel] at h
      simp [finalAssign, h, hnn, setJ]
  | arr xs => simp [finalAssign, h, hnn]
  | null => simp [jsGetSel] at h
  | bool b => simp [jsGetSel] at h
  | num n => simp [jsGetSel] at h
  | str s => simp [jsGetSel] at h

theorem finalAssign_replace {parent : JValue} {last : JSelector} {w : JValue}
    (h : jsGetSel parent last = some w) (hw : ∀ tf, w ≠ .obj tf) (edited : JValue) :
    finalAssign parent last edited = .ok (setJ parent last edited) := by
  cases parent with
  | obj fs =>
      simp only [jsGetSel] at h
      cases w with
      | obj tf => exact absurd rfl (hw tf)
      | null => simp [finalAssign, h, setJ]
      | bool b => simp [finalAssign, h, setJ]
      | num n => simp [finalAssign, h, setJ]
      | str s2 => simp [finalAssign, h, setJ]
      | arr ys => simp [finalAssign, h, setJ]
  | arr xs =>
      cases w with
      | obj tf => exact absurd rfl (hw tf)
      | null => simp [finalAssign, h]
      | bool b => simp [finalAssign, h]
      | num n => simp [finalAssign, h]
      | str s2 => simp [finalAssign, h]
      | arr ys => simp [finalAssign, h]
  | null => simp [jsGetSel] at h
  | bool b => simp [jsGetSel] at h
  | num n => simp [jsGetSel] at h
  | str s => simp [jsGetSel] at h

theorem finalAssign_missing_obj {fs : List (String × JValue)} {last : JSelector}
    (h : objGet fs (selKey last) = none) (edited : JValue) :
    finalAssign (.obj fs) last edited = .ok (.obj (objSet fs (selKey last) edited)) := by
  simp [finalAssign, h]

theorem jsGetSel_setJ_obj (pf : List (String × JValue)) (last : JSelector) (u : JValue) :
    jsGetSel (setJ (.obj pf) last u) last = some u := by
  simp [setJ, jsGetSel, objGet_objSet_self]

theorem update_at_parent (s : String) (t parent : JValue) (pre : List JSelector)
    (last : JSelector) (e : JValue) (R : JValue)
    (hparse : parseJson s = some t) (hpar : getAtPath t pre = some parent)
    (hfin : finalAssign parent last e = .ok R) :
    updateJsonByPath s (pre ++ [last]) e = stringify2 (setPath t pre R) ∧
    navUpdate e t (pre ++ [last]) = .ok (setPath t pre R) := by
  have hL1 := navUpdate_append e pre t parent [last] hpar (by simp)
  have hnav1 : navUpdate e parent [last] = finalAssign parent last e := rfl
  rw [hnav1, hfin] at hL1
  simp only [Except.map] at hL1
  refine ⟨?_, hL1⟩
  have hne : (pre ++ [last]).isEmpty = false := by cases pre <;> simp
  simp only [updateJsonByPath, hparse, hne, Bool.false_eq_true, if_false]
  rw [hL1]

/-- Claim C1: for every document that parses, every non-empty path whose slot
holds a non-null, non-array object, and every edited-fields mapping, the update
serializes a tree whose slot is the shallow merge: exactly the keys of the
mapping carrying leaf-scalar values are overwritten, keys absent from the
mapping keep their old value, and keys whose edited value is an object or
array, in particular every nested container child, are left untouched. -/
theorem claim_C1 (s : String) (t : JValue) (p : List JSelector)
    (ef tf : List (String × JValue))
    (hparse : parseJson s = some t) (hp : p ≠ [])
    (hslot : getAtPath t p = some (.obj tf)) :
    ∃ t2, updateJsonByPath s p (.obj ef) = stringify2 t2 ∧
      getAtPath t2 p = some (.obj (mergeLeafKeys tf (.obj ef))) ∧
      (∀ k v, objGet ef k = some v → isLeaf v = true →
          objGet (mergeLeafKeys tf (.obj ef)) k = some v) ∧
      (∀ k, objGet ef k = none →
          objGet (mergeLeafKeys tf (.obj ef)) k = objGet tf k) ∧
      (∀ k v, objGet ef k = some v → isLeaf v = false →
          objGet (mergeLeafKeys tf (.obj ef)) k = objGet tf k) := by
  rcases List.eq_nil_or_concat p with rfl | ⟨pre, last, rfl⟩
  · exact absurd rfl hp
  · simp only [List.concat_eq_append] at hslot ⊢
    rw [getAtPath_append] at hslot
    cases hpar : getAtPath t pre with
    | none => rw [hpar] at hslot; simp at hslot
    | some parent =>
        rw [hpar] at hslot
        simp only [Option.some_bind, getAtPath] at hslot
        cases hsel : jsGetSel parent last with
        | none => rw [hsel] at hslot; simp at hslot
        | some w =>
            rw [hsel] at hslot
            simp only [Option.some_bind, Option.some.injEq] at hslot
            subst hslot
            have hfin := @finalAssign_merge parent last tf hsel (.obj ef) rfl
            obtain ⟨hupd, _⟩ := update_at_parent s t parent pre last (.obj ef) _ hparse hpar hfin
            refine ⟨_, hupd, ?_, ?_, ?_, ?_⟩
            · rw [getAtPath_append, getAtPath_setPath pre t parent _ hpar]
              simp only [Option.some_bind, getAtPath]
              rw [jsGetSel_setJ hsel]
              rfl
            · intro k v hv hl
              exact mergeFold_write (.obj ef) hv hl _ tf (objGet_mem_keys hv)
            · intro k hk
              exact mergeFold_skip (.obj ef) (Or.inl hk) _ tf
            · intro k v hv hl
              exact mergeFold_skip (.obj ef) (Or.inr ⟨v, hv, hl⟩) _ tf

theorem claim_C1_witness :
    ∃ t2,
      updateJsonByPath
          (stringify2 (.obj [("x", .obj [("a", .num 1), ("nested", .obj [("z", .num 9)])])]))
          [.str "x"] (.obj [("a", .num 2)]) = stringify2 t2 ∧
      getAtPath t2 [.str "x"] =
        some (.obj (mergeLeafKeys [("a", .num 1), ("nested", .obj [("z", .num 9)])]
          (.obj [("a", .num 2)]))) ∧
      (∀ k v, objGet [("a", JValue.num 2)] k = some v → isLeaf v = true →
          objGet (mergeLeafKeys [("a", .num 1), ("nested", .obj [("z", .num 9)])]
            (.obj [("a", .num 2)])) k = some v) ∧
      (∀ k, objGet [("a", JValue.num 2)] k = none →
          objGet (mergeLeafKeys [("a", .num 1), ("nested", .obj [("z", .num 9)])]
            (.obj [("a", .num 2)])) k =
          objGet [("a", .num 1), ("nested", .obj [("z", .num 9)])] k) ∧
      (∀ k v, objGet [("a", JValue.num 2)] k = some v → isLeaf v = false →
          objGet (mergeLeafKeys [("a", .num 1), ("nested", .obj [("z", .num 9)])]
            (.obj [("a", .num 2)])) k =
          objGet [("a", .num 1), ("nested", .obj [("z", .num 9)])] k) :=
  claim_C1 _ (.obj [("x", .obj [("a", .num 1), ("nested", .obj [("z", .num 9)])])])
    [.str "x"] [("a", .num 2)] [("a", .num 1), ("nested", .obj [("z", .num 9)])]
    (by decide) (by simp) (by decide)

/-- Claim C5 (amended): whenever the walk stands on an object that lacks the
current selector's key (the rest of the walk proceeding through freshly made
containers), update synthesizes an empty array when the next selector is a
number and an empty object otherwise, descends, and finishes by writing
editedFields at the end — the walk never fails past such a miss; likewise for
an array missing the current index. The spec's concrete example is included.
The original claim's unrestricted form fails when an existing selector resolves
to null or a primitive: there the walk aborts and the document is returned
unchanged. -/
theorem claim_C5 :
    (∀ (fs : List (String × JValue)) (sel : JSelector) (rest : List JSelector) (e : JValue),
        rest ≠ [] → objGet fs (selKey sel) = none →
        navUpdate e (.obj fs) (sel :: rest) =
          .ok (.obj (objSet fs (selKey sel) (buildNested rest e)))) ∧
    (∀ (xs : List JValue) (i : Nat) (rest : List JSelector) (e : JValue),
        rest ≠ [] → xs[i]? = none →
        navUpdate e (.arr xs) (.num i :: rest) =
          .ok (.arr (arrSetNat xs i (buildNested rest e)))) ∧
    (∀ (d : String) (fs : List (String × JValue)) (sel : JSelector)
        (rest : List JSelector) (e : JValue),
        parseJson d = some (.obj fs) → rest ≠ [] → objGet fs (selKey sel) = none →
        updateJsonByPath d (sel :: rest) e =
          stringify2 (.obj (objSet fs (selKey sel) (buildNested rest e)))) ∧
    updateJsonByPath "{}" [.str "p", .str "q"] (.obj [("v", .num 1)]) =
      stringify2 (.obj [("p", .obj [("q", .obj [("v", .num 1)])])]) := by
  refine ⟨fun fs sel rest e h1 h2 => navUpdate_miss_obj e h1 h2,
          fun xs i rest e h1 h2 => navUpdate_miss_arr e h1 h2, ?_, by decide⟩
  intro d fs sel rest e hparse hrest hmiss
  simp only [updateJsonByPath, hparse, List.isEmpty_cons, Bool.false_eq_true, if_false]
  rw [navUpdate_miss_obj e hrest hmiss]

theorem claim_C5_counterexample :
    parseJson "null" = some JValue.null ∧
    updateJsonByPath "null" [.str "p", .str "q"] (.obj [("v", .num 1)]) = "null" ∧
    "null" ≠ stringify2 (.obj [("p", .obj [("q", .obj [("v", .num 1)])])]) :=
  ⟨by decide, by decide, by decide⟩

theorem claim_C5_witness :
    updateJsonByPath (stringify2 (.obj [("a", .num 1)])) [.str "p", .str "q"] (.num 7) =
      stringify2 (.obj (objSet [("a", JValue.num 1)] (selKey (.str "p"))
        (buildNested [.str "q"] (.num 7)))) :=
  claim_C5.2.2.1 _ [("a", .num 1)] (.str "p") [.str "q"] (.num 7)
    (by decide) (by simp) (by decide)

theorem finalAssign_arr_num {xs : List JValue} {i : Nat}
    (h : ∀ tf, xs[i]? ≠ some (.obj tf)) (e : JValue) :
    finalAssign (.arr xs) (.num i) e = .ok (.arr (arrSetNat xs i e)) := by
  cases hg : xs[i]? with
  | none => simp [finalAssign, jsGetSel, hg, setJ]
  | some w =>
      cases w with
      | obj tf => exact absurd hg (h tf)
      | null => simp [finalAssign, jsGetSel, hg, setJ]
      | bool b => simp [finalAssign, jsGetSel, hg, setJ]
      | num n => simp [finalAssign, jsGetSel, hg, setJ]
      | str s0 => simp [finalAssign, jsGetSel, hg, setJ]
      | arr ys => simp [finalAssign, jsGetSel, hg, setJ]

theorem getAtPath_buildNested : ∀ (rest : List JSelector) (e : JValue),
    getAtPath (buildNested rest e) rest = some e := by
  intro rest
  induction rest with
  | nil => intro e; rfl
  | cons sel rest ih =>
      intro e
      cases sel with
      | num i =>
          show ((List.replicate i JValue.null ++ [buildNested rest e])[i]?).bind
            (fun c => getAtPath c rest) = some e
          rw [List.getElem?_append_right (by simp),
            show i - (List.replicate i JValue.null).length = 0 by simp]
          simp only [List.getElem?_cons_zero, Option.some_bind]
          exact ih e
      | str s0 =>
          show (objGet [(s0, buildNested rest e)] s0).bind
            (fun c => getAtPath c rest) = some e
          have hg : objGet [(s0, buildNested rest e)] s0 = some (buildNested rest e) := by
            simp [objGet]
          rw [hg]
          simp only [Option.some_bind]
          exact ih e

/-- Claim C3 (amended): edited text that fails to parse as JSON becomes the raw
string value in handleSave. At the document root, at an existing object key or
array index whose current value is not a non-null, non-array object, and at a
slot whose missing parents the walk synthesizes, the update stores that bare
string wholesale; but when the slot does hold a plain object — under an object
or an array parent alike — the merge branch runs instead and Object.keys of
the string merges its characters into the object as index-keyed one-character
fields, so no bare string replacement happens there. -/
theorem claim_C3 (s etext : String) (t : JValue)
    (hparse : parseJson s = some t) (hbad : parseJson etext = none) :
    parseEditedValue etext = .str etext ∧
    updateJsonByPath s [] (parseEditedValue etext) = stringify2 (.str etext) ∧
    (∀ (pre : List JSelector) (lastSel : JSelector) (pf : List (String × JValue)),
        getAtPath t pre = some (.obj pf) →
        (∀ tf, objGet pf (selKey lastSel) ≠ some (.obj tf)) →
        ∃ t2, updateJsonByPath s (pre ++ [lastSel]) (parseEditedValue etext) =
            stringify2 t2 ∧
          getAtPath t2 (pre ++ [lastSel]) = some (.str etext)) ∧
    (∀ (pre : List JSelector) (lastSel : JSelector) (pf tf : List (String × JValue)),
        getAtPath t pre = some (.obj pf) →
        objGet pf (selKey lastSel) = some (.obj tf) →
        ∃ t2, updateJsonByPath s (pre ++ [lastSel]) (parseEditedValue etext) =
            stringify2 t2 ∧
          getAtPath t2 (pre ++ [lastSel]) = some (.obj (mergeLeafKeys tf (.str etext)))) ∧
    (∀ (pre : List JSelector) (i : Nat) (xs : List JValue),
        getAtPath t pre = some (.arr xs) →
        (∀ tf, xs[i]? ≠ some (JValue.obj tf)) →
        ∃ t2, updateJsonByPath s (pre ++ [.num i]) (parseEditedValue etext) =
            stringify2 t2 ∧
          getAtPath t2 (pre ++ [.num i]) = some (.str etext)) ∧
    (∀ (pre : List JSelector) (i : Nat) (xs : List JValue) (tf : List (String × JValue)),
        getAtPath t pre = some (.arr xs) →
        xs[i]? = some (.obj tf) →
        ∃ t2, updateJsonByPath s (pre ++ [.num i]) (parseEditedValue etext) =
            stringify2 t2 ∧
          getAtPath t2 (pre ++ [.num i]) = some (.obj (mergeLeafKeys tf (.str etext)))) ∧
    (∀ (pre : List JSelector) (fs : List (String × JValue)) (sel : JSelector)
        (rest : List JSelector),
        getAtPath t pre = some (.obj fs) →
        objGet fs (selKey sel) = none → rest ≠ [] →
        ∃ t2, updateJsonByPath s (pre ++ sel :: rest) (parseEditedValue etext) =
            stringify2 t2 ∧
          getAtPath t2 (pre ++ sel :: rest) = some (.str etext)) := by
  have hpe : parseEditedValue etext = .str etext := by
    simp [parseEditedValue, hbad]
  refine ⟨hpe, ?_, ?_, ?_, ?_, ?_, ?_⟩
  · rw [hpe]
    simp [updateJsonByPath, hparse]
  · intro pre lastSel pf hpar hnobj
    have hfin : finalAssign (.obj pf) lastSel (.str etext) =
        .ok (setJ (.obj pf) lastSel (.str etext)) := by
      cases hg : objGet pf (selKey lastSel) with
      | none => exact finalAssign_missing_obj hg (.str etext)
      | some w =>
          refine @finalAssign_replace (.obj pf) lastSel w
            (by simpa [jsGetSel] using hg) ?_ (.str etext)
          intro tf htf
          exact hnobj tf (htf ▸ hg)
    rw [hpe]
    obtain ⟨hupd, _⟩ :=
      update_at_parent s t (.obj pf) pre lastSel (.str etext) _ hparse hpar hfin
    refine ⟨_, hupd, ?_⟩
    rw [getAtPath_append, getAtPath_setPath pre t (.obj pf) _ hpar]
    simp only [Option.some_bind, getAtPath]
    rw [jsGetSel_setJ_obj]
    rfl
  · intro pre lastSel pf tf hpar htf
    have hsel : jsGetSel (.obj pf) lastSel = some (.obj tf) := by
      simpa [jsGetSel] using htf
    have hfin := @finalAssign_merge (.obj pf) lastSel tf hsel (.str etext) rfl
    rw [hpe]
    obtain ⟨hupd, _⟩ :=
      update_at_parent s t (.obj pf) pre lastSel (.str etext) _ hparse hpar hfin
    refine ⟨_, hupd, ?_⟩
    rw [getAtPath_append, getAtPath_setPath pre t (.obj pf) _ hpar]
    simp only [Option.some_bind, getAtPath]
    rw [jsGetSel_setJ hsel]
    rfl
  · intro pre i xs hpar hnobj
    have hfin : finalAssign (.arr xs) (.num i) (.str etext) =
        .ok (.arr (arrSetNat xs i (.str etext))) := finalAssign_arr_num hnobj (.str etext)
    rw [hpe]
    obtain ⟨hupd, _⟩ :=
      update_at_parent s t (.arr xs) pre (.num i) (.str etext) _ hparse hpar hfin
    refine ⟨_, hupd, ?_⟩
    rw [getAtPath_append, getAtPath_setPath pre t (.arr xs) _ hpar]
    simp only [Option.some_bind, getAtPath]
    rw [show jsGetSel (.arr (arrSetNat xs i (.str etext))) (.num i) =
      (arrSetNat xs i (.str etext))[i]? from rfl, arrSetNat_get_self]
    rfl
  · intro pre i xs tf hpar hg
    have hsel : jsGetSel (.arr xs) (.num i) = some (.obj tf) := hg
    have hfin := @finalAssign_merge (.arr xs) (.num i) tf hsel (.str etext) rfl
    rw [hpe]
    obtain ⟨hupd, _⟩ :=
      update_at_parent s t (.arr xs) pre (.num i) (.str etext) _ hparse hpar hfin
    refine ⟨_, hupd, ?_⟩
    rw [getAtPath_append, getAtPath_setPath pre t (.arr xs) _ hpar]
    simp only [Option.some_bind, getAtPath]
    rw [jsGetSel_setJ hsel]
    rfl
  · intro pre fs sel rest hpar hmiss hrest
    rw [hpe]
    have hnav := navUpdate_append (.str etext) pre t (.obj fs) (sel :: rest) hpar (by simp)
    rw [navUpdate_miss_obj (.str etext) hrest hmiss] at hnav
    simp only [Except.map] at hnav
    have hne : (pre ++ sel :: rest).isEmpty = false := by cases pre <;> simp
    refine ⟨setPath t pre (.obj (objSet fs (selKey sel) (buildNested rest (.str etext)))),
      ?_, ?_⟩
    · simp only [updateJsonByPath, hparse, hne, Bool.false_eq_true, if_false]
      rw [hnav]
    · rw [getAtPath_append, getAtPath_setPath pre t (.obj fs) _ hpar]
      simp only [Option.some_bind, getAtPath]
      rw [show jsGetSel (.obj (objSet fs (selKey sel) (buildNested rest (.str etext)))) sel =
        objGet (objSet fs (selKey sel) (buildNested rest (.str etext))) (selKey sel) from rfl,
        objGet_objSet_self]
      simp only [Option.some_bind]
      exact getAtPath_buildNested rest (.str etext)

theorem claim_C3_counterexample :
    parseJson "oops" = none ∧
    parseEditedValue "oops" = .str "oops" ∧
    ∃ t2, parseJson (updateJsonByPath (stringify2 (.obj [("x", .obj [("a", .num 1)])]))
        [.str "x"] (parseEditedValue "oops")) = some t2 ∧
      getAtPath t2 [.str "x", .str "a"] = some (.num 1) ∧
      getAtPath t2 [.str "x", .str "0"] = some (.str "o") ∧
      getAtPath t2 [.str "x", .str "1"] = some (.str "o") ∧
      getAtPath t2 [.str "x", .str "2"] = some (.str "p") ∧
      getAtPath t2 [.str "x", .str "3"] = some (.str "s") ∧
      getAtPath t2 [.str "x"] ≠ some (.str "oops") :=
  ⟨by decide, by decide,
   ⟨.obj [("x", .obj [("a", .num 1), ("0", .str "o"), ("1", .str "o"),
      ("2", .str "p"), ("3", .str "s")])], by decide⟩⟩

theorem claim_C3_witness :
    parseEditedValue "oops" = .str "oops" ∧
    updateJsonByPath (stringify2 (.obj [("x", .num 5)])) [] (parseEditedValue "oops") =
      stringify2 (.str "oops") ∧
    (∀ (pre : List JSelector) (lastSel : JSelector) (pf : List (String × JValue)),
        getAtPath (.obj [("x", .num 5)]) pre = some (.obj pf) →
        (∀ tf, objGet pf (selKey lastSel) ≠ some (.obj tf)) →
        ∃ t2, updateJsonByPath (stringify2 (.obj [("x", .num 5)])) (pre ++ [lastSel])
            (parseEditedValue "oops") = stringify2 t2 ∧
          getAtPath t2 (pre ++ [lastSel]) = some (.str "oops")) ∧
    (∀ (pre : List JSelector) (lastSel : JSelector) (pf tf : List (String × JValue)),
        getAtPath (.obj [("x", .num 5)]) pre = some (.obj pf) →
        objGet pf (selKey lastSel) = some (.obj tf) →
        ∃ t2, updateJsonByPath (stringify2 (.obj [("x", .num 5)])) (pre ++ [lastSel])
            (parseEditedValue "oops") = stringify2 t2 ∧
          getAtPath t2 (pre ++ [lastSel]) = some (.obj (mergeLeafKeys tf (.str "oops")))) ∧
    (∀ (pre : List JSelector) (i : Nat) (xs : List JValue),
        getAtPath (.obj [("x", .num 5)]) pre = some (.arr xs) →
        (∀ tf, xs[i]? ≠ some (JValue.obj tf)) →
        ∃ t2, updateJsonByPath (stringify2 (.obj [("x", .num 5)])) (pre ++ [.num i])
            (parseEditedValue "oops") = stringify2 t2 ∧
          getAtPath t2 (pre ++ [.num i]) = some (.str "oops")) ∧
    (∀ (pre : List JSelector) (i : Nat) (xs : List JValue) (tf : List (String × JValue)),
        getAtPath (.obj [("x", .num 5)]) pre = some (.arr xs) →
        xs[i]? = some (.obj tf) →
        ∃ t2, updateJsonByPath (stringify2 (.obj [("x", .num 5)])) (pre ++ [.num i])
            (parseEditedValue "oops") = stringify2 t2 ∧
          getAtPath t2 (pre ++ [.num i]) = some (.obj (mergeLeafKeys tf (.str "oops")))) ∧
    (∀ (pre : List JSelector) (fs : List (String × JValue)) (sel : JSelector)
        (rest : List JSelector),
        getAtPath (.obj [("x", .num 5)]) pre = some (.obj fs) →
        objGet fs (selKey sel) = none → rest ≠ [] →
        ∃ t2, updateJsonByPath (stringify2 (.obj [("x", .num 5)])) (pre ++ sel :: rest)
            (parseEditedValue "oops") = stringify2 t2 ∧
          getAtPath t2 (pre ++ sel :: rest) = some (.str "oops")) :=
  claim_C3 (stringify2 (.obj [("x", .num 5)])) "oops" (.obj [("x", .num 5)])
    (by decide) (by decide)

/-- True when the input does not start with a decimal digit, so that a number
just printed before it is read back with the same digits. -/
def headNotDigitB : List Char → Bool
  | [] => true
  | c :: _ => !c.isDigit

theorem skipWs_not {c : Char} (h : isWsChar c = false) (cs : List Char) :
    skipWs (c :: cs) = c :: cs := by
  simp [skipWs, h]

theorem skipWs_append {ws : List Char} (h : ∀ c ∈ ws, isWsChar c = true) (cs : List Char) :
    skipWs (ws ++ cs) = skipWs cs := by
  induction ws with
  | nil => simp
  | cons c ws ih =>
      have hc : isWsChar c = true := h c (List.mem_cons_self c ws)
      simp only [List.cons_append, skipWs, hc, if_true]
      exact ih (fun c2 hc2 => h c2 (List.mem_cons_of_mem c hc2))

theorem indentChars_ws {n : Nat} : ∀ c ∈ indentChars n, isWsChar c = true := by
  intro c hc
  simp only [indentChars, List.mem_replicate] at hc
  rw [hc.2]
  decide

theorem digitChar_facts {n : Nat} (h : n < 10) :
    (digitChar n).isDigit = true ∧ (digitChar n).toNat = 48 + n := by
  interval_cases n <;> exact ⟨by decide, by decide⟩

theorem digitsVal_append_singleton (a : List Char) (c : Char) :
    digitsVal (a ++ [c]) = 10 * digitsVal a + (c.toNat - 48) := by
  simp [digitsVal, List.foldl_append]

theorem natToDigitsAux_spec : ∀ (f n : Nat), n < f →
    natToDigitsAux f n ≠ [] ∧ (∀ c ∈ natToDigitsAux f n, c.isDigit = true) ∧
    digitsVal (natToDigitsAux f n) = n := by
  intro f
  induction f with
  | zero => intro n h; omega
  | succ f ih =>
      intro n h
      by_cases h10 : n < 10
      · simp only [natToDigitsAux, if_pos h10]
        obtain ⟨hd, ht⟩ := digitChar_facts h10
        refine ⟨by simp, ?_, ?_⟩
        · intro c hc
          simp only [List.mem_singleton] at hc
          rw [hc]
          exact hd
        · simp [digitsVal, ht]
      · simp only [natToDigitsAux, if_neg h10]
        have hdiv : n / 10 < f := by
          have := Nat.div_lt_self (by omega : 0 < n) (by omega : 1 < 10)
          omega
        obtain ⟨hne, hall, hval⟩ := ih (n / 10) hdiv
        have hm : n % 10 < 10 := Nat.mod_lt _ (by omega)
        obtain ⟨hd, ht⟩ := digitChar_facts hm
        refine ⟨by simp, ?_, ?_⟩
        · intro c hc
          rcases List.mem_append.mp hc with hc | hc
          · exact hall c hc
          · simp only [List.mem_singleton] at hc
            rw [hc]
            exact hd
        · rw [digitsVal_append_singleton, hval, ht]
          omega

theorem natToDigits_spec (n : Nat) :
    natToDigits n ≠ [] ∧ (∀ c ∈ natToDigits n, c.isDigit = true) ∧
    digitsVal (natToDigits n) = n :=
  natToDigitsAux_spec (n + 1) n (by omega)

theorem takeWhile_digits_append {ds rest : List Char} (hds : ∀ c ∈ ds, c.isDigit = true)
    (hrest : headNotDigitB rest = true) :
    (ds ++ rest).takeWhile Char.isDigit = ds ∧ (ds ++ rest).dropWhile Char.isDigit = rest := by
  induction ds with
  | nil =>
      cases rest with
      | nil => simp
      | cons r rs =>
          simp only [headNotDigitB, Bool.not_eq_true'] at hrest
          simp [List.takeWhile_cons, List.dropWhile_cons, hrest]
  | cons d ds ih =>
      have hd := hds d (List.mem_cons_self d ds)
      obtain ⟨h1, h2⟩ := ih (fun c hc => hds c (List.mem_cons_of_mem d hc))
      simp [List.takeWhile_cons, List.dropWhile_cons, hd, h1, h2]

theorem parseNatNum_digits {n : Nat} {rest : List Char} (hrest : headNotDigitB rest = true) :
    parseNatNum (natToDigits n ++ rest) = some (n, rest) := by
  obtain ⟨hne, hall, hval⟩ := natToDigits_spec n
  obtain ⟨ht, hdr⟩ := takeWhile_digits_append hall hrest
  have hemp : (natToDigits n).isEmpty = false := by
    cases hh : natToDigits n with
    | nil => exact absurd hh hne
    | cons c cs => rfl
  simp [parseNatNum, ht, hdr, hval, hemp]

theorem digit_not_ws {c : Char} (h : c.isDigit = true) : isWsChar c = false := by
  cases hw : isWsChar c
  · rfl
  · simp only [isWsChar, Bool.or_eq_true, beq_iff_eq] at hw
    rcases hw with ((rfl | rfl) | rfl) | rfl <;> exact absurd h (by decide)

theorem digit_ne {c : Char} (h : c.isDigit = true) (x : Char) (hx : x.isDigit = false) :
    c ≠ x := by
  intro hh
  rw [hh] at h
  rw [h] at hx
  cases hx

theorem render_head (d : Nat) (v : JValue) :
    ∃ c cs, render d v = c :: cs ∧ isWsChar c = false ∧ c ≠ ']' ∧ c ≠ rbrace := by
  cases v with
  | null => exact ⟨'n', ['u', 'l', 'l'], rfl, by decide, by decide, by decide⟩
  | bool b =>
      cases b with
      | true => exact ⟨'t', ['r', 'u', 'e'], rfl, by decide, by decide, by decide⟩
      | false => exact ⟨'f', ['a', 'l', 's', 'e'], rfl, by decide, by decide, by decide⟩
  | num n =>
      by_cases hn : n < 0
      · refine ⟨'-', natToDigits n.natAbs, ?_, by decide, by decide, by decide⟩
        simp [render, intChars, hn]
      · obtain ⟨hne, hall, _⟩ := natToDigits_spec n.natAbs
        cases hh : natToDigits n.natAbs with
        | nil => exact absurd hh hne
        | cons c cs =>
            have hd := hall c (by rw [hh]; exact List.mem_cons_self c cs)
            refine ⟨c, cs, ?_, digit_not_ws hd, digit_ne hd ']' (by decide),
              digit_ne hd rbrace (by decide)⟩
            simp [render, intChars, hn, hh]
  | str s =>
      exact ⟨'"', escListChars s.data ++ ['"'], rfl, by decide, by decide, by decide⟩
  | arr xs =>
      cases xs with
      | nil => exact ⟨'[', [']'], rfl, by decide, by decide, by decide⟩
      | cons x xs =>
          exact ⟨'[', _, rfl, by decide, by decide, by decide⟩
  | obj fs =>
      cases fs with
      | nil => exact ⟨lbrace, [rbrace], rfl, by decide, by decide, by decide⟩
      | cons kv fs =>
          exact ⟨lbrace, _, rfl, by decide, by decide, by decide⟩

theorem hexVal_hexDigitChar {m : Nat} (h : m < 16) : hexVal (hexDigitChar m) = some m := by
  interval_cases m <;> decide

theorem psb_quote (cs : List Char) : parseStringBody ('"' :: cs) = some ([], cs) := by
  conv_lhs => unfold parseStringBody
  rfl

theorem psb_esc_quote (cs : List Char) :
    parseStringBody ('\\' :: '"' :: cs) =
      (parseStringBody cs).map (fun p => ('"' :: p.1, p.2)) := by
  conv_lhs => unfold parseStringBody
  rfl

theorem psb_esc_backslash (cs : List Char) :
    parseStringBody ('\\' :: '\\' :: cs) =
      (parseStringBody cs).map (fun p => ('\\' :: p.1, p.2)) := by
  conv_lhs => unfold parseStringBody
  rfl

theorem psb_esc_n (cs : List Char) :
    parseStringBody ('\\' :: 'n' :: cs) =
      (parseStringBody cs).map (fun p => ('\n' :: p.1, p.2)) := by
  conv_lhs => unfold parseStringBody
  rfl

theorem psb_esc_r (cs : List Char) :
    parseStringBody ('\\' :: 'r' :: cs) =
      (parseStringBody cs).map (fun p => ('\r' :: p.1, p.2)) := by
  conv_lhs => unfold parseStringBody
  rfl

theorem psb_esc_t (cs : List Char) :
    parseStringBody ('\\' :: 't' :: cs) =
      (parseStringBody cs).map (fun p => ('\t' :: p.1, p.2)) := by
  conv_lhs => unfold parseStringBody
  rfl

theorem psb_esc_b (cs : List Char) :
    parseStringBody ('\\' :: 'b' :: cs) =
      (parseStringBody cs).map (fun p => (Char.ofNat 8 :: p.1, p.2)) := by
  conv_lhs => unfold parseStringBody
  rfl

theorem psb_esc_f (cs : List Char) :
    parseStringBody ('\\' :: 'f' :: cs) =
      (parseStringBody cs).map (fun p => (Char.ofNat 12 :: p.1, p.2)) := by
  conv_lhs => unfold parseStringBody
  rfl

theorem psb_raw {c : Char} (h1 : ¬c = '"') (h2 : ¬c = '\\') (cs : List Char) :
    parseStringBody (c :: cs) = (parseStringBody cs).map (fun p => (c :: p.1, p.2)) := by
  conv_lhs => unfold parseStringBody
  rw [if_neg h1, if_neg h2]

theorem psb_u {h1 h2 h3 h4 : Char} (cs3 : List Char) {a b cc dd : Nat}
    (e1 : hexVal h1 = some a) (e2 : hexVal h2 = some b) (e3 : hexVal h3 = some cc)
    (e4 : hexVal h4 = some dd) :
    parseStringBody ('\\' :: 'u' :: h1 :: h2 :: h3 :: h4 :: cs3) =
      (parseStringBody cs3).map
        (fun p => (Char.ofNat (a * 4096 + b * 256 + cc * 16 + dd) :: p.1, p.2)) := by
  conv_lhs => unfold parseStringBody
  simp only [e1, e2, e3, e4]
  rfl

theorem parseStringBody_escape :
    ∀ (l rest : List Char), parseStringBody (escListChars l ++ '"' :: rest) = some (l, rest) := by
  intro l
  induction l with
  | nil => intro rest; simp only [escListChars, List.nil_append]; exact psb_quote rest
  | cons c l ih =>
      intro rest
      simp only [escListChars, List.append_assoc]
      unfold escapeChar
      split_ifs with h1 h2 h3 h4 h5 h6 h7 h8
      · subst h1
        simp only [List.cons_append, List.nil_append, psb_esc_quote, ih, Option.map_some']
      · subst h2
        simp only [List.cons_append, List.nil_append, psb_esc_backslash, ih, Option.map_some']
      · subst h3
        simp only [List.cons_append, List.nil_append, psb_esc_n, ih, Option.map_some']
      · subst h4
        simp only [List.cons_append, List.nil_append, psb_esc_r, ih, Option.map_some']
      · subst h5
        simp only [List.cons_append, List.nil_append, psb_esc_t, ih, Option.map_some']
      · have hc : c = Char.ofNat 8 := by rw [← Char.ofNat_toNat c, h6]
        subst hc
        simp only [List.cons_append, List.nil_append, psb_esc_b, ih, Option.map_some']
      · have hc : c = Char.ofNat 12 := by rw [← Char.ofNat_toNat c, h7]
        subst hc
        simp only [List.cons_append, List.nil_append, psb_esc_f, ih, Option.map_some']
      · have hdiv : c.toNat / 16 < 16 := by omega
        have hmod : c.toNat % 16 < 16 := by omega
        simp only [List.cons_append, List.nil_append]
        rw [psb_u _ (by decide : hexVal '0' = some 0) (by decide : hexVal '0' = some 0)
          (hexVal_hexDigitChar hdiv) (hexVal_hexDigitChar hmod), ih]
        have hval : 0 * 4096 + 0 * 256 + c.toNat / 16 * 16 + c.toNat % 16 = c.toNat := by
          omega
        simp only [Option.map_some', hval, Char.ofNat_toNat]
      · simp only [List.cons_append, List.nil_append, psb_raw h1 h2, ih, Option.map_some']

theorem sizeL_pos (xs : List JValue) : 1 ≤ sizeL xs := by
  cases xs <;> simp [sizeL] <;> omega

theorem sizeF_pos (fs : List (String × JValue)) : 1 ≤ sizeF fs := by
  cases fs <;> simp [sizeF] <;> omega

theorem size_le_render : ∀ N,
    (∀ v, sizeJ v ≤ N → ∀ d, sizeJ v ≤ (render d v).length + 1) ∧
    (∀ xs, xs ≠ [] → sizeL xs ≤ N → ∀ d, sizeL xs ≤ (renderElems (d + 1) xs).length + 1) ∧
    (∀ fs, fs ≠ [] → sizeF fs ≤ N → ∀ d, sizeF fs ≤ (renderMembers (d + 1) fs).length + 1) := by
  intro N
  induction N with
  | zero =>
      refine ⟨fun v hv => absurd hv (by have := sizeJ_pos v; omega),
        fun xs hne hs => absurd hs (by have := sizeL_pos xs; omega),
        fun fs hne hs => absurd hs (by have := sizeF_pos fs; omega)⟩
  | succ N ih =>
      obtain ⟨ihv, ihe, ihm⟩ := ih
      refine ⟨?_, ?_, ?_⟩
      · intro v hv d
        cases v with
        | null => simp [sizeJ, render]
        | bool b => cases b <;> simp [sizeJ, render]
        | num n => simp only [sizeJ]; omega
        | str s => simp only [sizeJ]; omega
        | arr xs =>
            cases xs with
            | nil => simp [sizeJ, sizeL, render]
            | cons x xs =>
                have hs : sizeL (x :: xs) ≤ N := by
                  simp only [sizeJ] at hv; omega
                have := ihe (x :: xs) (by simp) hs d
                simp only [sizeJ, render, List.length_cons, List.length_append,
                  indentChars, List.length_replicate]
                omega
        | obj fs =>
            cases fs with
            | nil => simp [sizeJ, sizeF, render]
            | cons kv fs =>
                have hs : sizeF (kv :: fs) ≤ N := by
                  simp only [sizeJ] at hv; omega
                have := ihm (kv :: fs) (by simp) hs d
                simp only [sizeJ, render, List.length_cons, List.length_append,
                  indentChars, List.length_replicate]
                omega
      · intro xs hne hs d
        cases xs with
        | nil => exact absurd rfl hne
        | cons x xs =>
            have hx : sizeJ x ≤ N := by
              have := sizeL_pos xs
              simp only [sizeL] at hs
              omega
            have h1 := ihv x hx (d + 1)
            cases xs with
            | nil =>
                simp only [sizeL, renderElems, List.length_append, indentChars,
                  List.length_replicate]
                omega
            | cons y ys =>
                have hs2 : sizeL (y :: ys) ≤ N := by
                  have := sizeJ_pos x
                  simp only [sizeL] at hs ⊢
                  omega
                have h2 := ihe (y :: ys) (by simp) hs2 d
                simp only [sizeL] at hs h2 ⊢
                simp only [renderElems, List.length_append, List.length_cons,
                  indentChars, List.length_replicate] at h2 ⊢
                omega
      · intro fs hne hs d
        cases fs with
        | nil => exact absurd rfl hne
        | cons kv fs =>
            have hx : sizeJ kv.2 ≤ N := by
              have := sizeF_pos fs
              simp only [sizeF] at hs
              omega
            have h1 := ihv kv.2 hx (d + 1)
            cases fs with
            | nil =>
                simp only [sizeF, renderMembers, List.length_append, List.length_cons,
                  indentChars, List.length_replicate]
                omega
            | cons kw gs =>
                have hs2 : sizeF (kw :: gs) ≤ N := by
                  have := sizeJ_pos kv.2
                  simp only [sizeF] at hs ⊢
                  omega
                have h2 := ihm (kw :: gs) (by simp) hs2 d
                simp only [sizeF] at hs h2 ⊢
                simp only [renderMembers, List.length_append, List.length_cons,
                  indentChars, List.length_replicate] at h2 ⊢
                omega

/-- Duplicate-freedom of the keys alone. -/
def nodupKeysF : List (String × JValue) → Bool
  | [] => true
  | kv :: fs => !hasKeyB fs kv.1 && nodupKeysF fs

theorem wfF_nodupKeys {fs : List (String × JValue)} (h : wfF fs = true) :
    nodupKeysF fs = true := by
  induction fs with
  | nil => rfl
  | cons kv fs ih =>
      simp only [wfF, Bool.and_eq_true] at h
      simp only [nodupKeysF, Bool.and_eq_true]
      exact ⟨h.1.1, ih h.2⟩

theorem wfF_values {fs : List (String × JValue)} (h : wfF fs = true) :
    ∀ kv ∈ fs, wfJ kv.2 = true := by
  induction fs with
  | nil => intro kv hkv; cases hkv
  | cons kw fs ih =>
      simp only [wfF, Bool.and_eq_true] at h
      intro kv hkv
      rcases List.mem_cons.mp hkv with rfl | hkv
      · exact h.1.2
      · exact ih h.2 kv hkv

theorem objSet_fresh {fs : List (String × JValue)} {k : String} (h : hasKeyB fs k = false)
    (v : JValue) : objSet fs k v = fs ++ [(k, v)] := by
  induction fs with
  | nil => rfl
  | cons kv fs ih =>
      simp only [hasKeyB, List.any_cons, Bool.or_eq_false_iff] at h
      have h1 : ¬ kv.1 = k := by
        intro hh
        rw [hh] at h
        simp at h
      have h2 : hasKeyB fs k = false := h.2
      simp [objSet, h1, ih h2]

theorem hasKeyB_append (a b : List (String × JValue)) (k : String) :
    hasKeyB (a ++ b) k = (hasKeyB a k || hasKeyB b k) := by
  simp [hasKeyB, List.any_append]

theorem foldl_objSet_eq : ∀ (fs acc : List (String × JValue)),
    nodupKeysF fs = true → (∀ kv ∈ fs, hasKeyB acc kv.1 = false) →
    fs.foldl (fun acc2 kv => objSet acc2 kv.1 kv.2) acc = acc ++ fs := by
  intro fs
  induction fs with
  | nil => intro acc _ _; simp
  | cons kv fs ih =>
      intro acc hnd hfresh
      obtain ⟨k0, v0⟩ := kv
      simp only [nodupKeysF, Bool.and_eq_true, Bool.not_eq_true'] at hnd
      simp only [List.foldl_cons]
      rw [objSet_fresh (hfresh (k0, v0) (List.mem_cons_self _ _)) v0]
      rw [ih (acc ++ [(k0, v0)]) hnd.2 ?_]
      · simp
      · intro kw hkw
        rw [hasKeyB_append]
        have ha : hasKeyB acc kw.1 = false := hfresh kw (List.mem_cons_of_mem _ hkw)
        have hb : hasKeyB [(k0, v0)] kw.1 = false := by
          simp only [hasKeyB, List.any_cons, List.any_nil, Bool.or_false]
          have : ∀ kv2 ∈ fs, ¬ kv2.1 = k0 := by
            intro kv2 hkv2 hh
            have : hasKeyB fs k0 = true := by
              simp only [hasKeyB, List.any_eq_true]
              exact ⟨kv2, hkv2, by simp [hh]⟩
            rw [this] at hnd
            exact absurd hnd.1 (by simp)
          simp [beq_eq_false_iff_ne]
          exact fun hh => (this kw hkw) hh.symm
        rw [ha, hb]
        rfl

theorem dedupFields_eq {fs : List (String × JValue)} (h : nodupKeysF fs = true) :
    dedupFields fs = fs := by
  have := foldl_objSet_eq fs [] h (fun kv _ => rfl)
  simpa [dedupFields] using this

theorem mem_ws_append {a b : List Char} (ha : ∀ c ∈ a, isWsChar c = true)
    (hb : ∀ c ∈ b, isWsChar c = true) : ∀ c ∈ a ++ b, isWsChar c = true := by
  intro c hc
  rcases List.mem_append.mp hc with h | h
  · exact ha c h
  · exact hb c h

theorem nl_ind_ws (m : Nat) : ∀ c ∈ ('\n' :: indentChars m), isWsChar c = true := by
  intro c hc
  rcases List.mem_cons.mp hc with rfl | hc
  · decide
  · exact indentChars_ws c hc

theorem skipWs_elems (d : Nat) (x : JValue) (xs : List JValue) (suffix : List Char) :
    ∃ c2 r2, skipWs ('\n' :: (renderElems (d + 1) (x :: xs) ++ suffix)) = c2 :: r2 ∧
      ¬ c2 = ']' ∧ ¬ c2 = rbrace := by
  obtain ⟨cx, csx, hx, hxws, hxne, hxne2⟩ := render_head (d + 1) x
  cases xs with
  | nil =>
      refine ⟨cx, csx ++ suffix, ?_, hxne, hxne2⟩
      simp only [renderElems]
      rw [show ('\n' :: ((indentChars (2 * (d + 1)) ++ render (d + 1) x) ++ suffix)) =
        ('\n' :: indentChars (2 * (d + 1))) ++ (render (d + 1) x ++ suffix) by simp]
      rw [skipWs_append (nl_ind_ws _), hx, List.cons_append, skipWs_not hxws]
  | cons y ys =>
      refine ⟨cx, csx ++ (',' :: '\n' :: renderElems (d + 1) (y :: ys) ++ suffix), ?_,
        hxne, hxne2⟩
      simp only [renderElems]
      rw [show ('\n' :: ((indentChars (2 * (d + 1)) ++ render (d + 1) x ++
          ',' :: '\n' :: renderElems (d + 1) (y :: ys)) ++ suffix)) =
        ('\n' :: indentChars (2 * (d + 1))) ++
          (render (d + 1) x ++ (',' :: '\n' :: renderElems (d + 1) (y :: ys) ++ suffix))
          by simp]
      rw [skipWs_append (nl_ind_ws _), hx, List.cons_append, skipWs_not hxws]

/-- Parsing the rendering of null, with whitespace before and an arbitrary tail after. -/
theorem prv_null (f0 : Nat) (d : Nat) (ws rest : List Char)
    (hws : ∀ c ∈ ws, isWsChar c = true) :
    parseVal (f0 + 1) (ws ++ render d .null ++ rest) = some (.null, rest) := by
  simp only [parseVal, List.append_assoc]
  rw [skipWs_append hws]
  simp only [render, List.cons_append, List.nil_append]
  rw [skipWs_not (by decide)]
  rfl

/-- Parsing the rendering of a string value. -/
theorem prv_str (f0 : Nat) (d : Nat) (s : String) (ws rest : List Char)
    (hws : ∀ c ∈ ws, isWsChar c = true) :
    parseVal (f0 + 1) (ws ++ render d (.str s) ++ rest) = some (.str s, rest) := by
  simp only [parseVal, List.append_assoc]
  rw [skipWs_append hws]
  simp only [render, List.cons_append, List.nil_append, List.append_assoc]
  rw [skipWs_not (by decide)]
  show (parseStringBody (escListChars s.data ++ '"' :: rest)).map
    (fun p => (JValue.str (String.mk p.1), p.2)) = some (.str s, rest)
  rw [parseStringBody_escape]
  rfl

/-- Parsing the rendering of a number, the tail not starting with a digit. -/
theorem prv_num (f0 : Nat) (d : Nat) (n : Int) (ws rest : List Char)
    (hws : ∀ c ∈ ws, isWsChar c = true) (hrest : headNotDigitB rest = true) :
    parseVal (f0 + 1) (ws ++ render d (.num n) ++ rest) = some (.num n, rest) := by
  simp only [parseVal, List.append_assoc]
  rw [skipWs_append hws]
  by_cases hneg : n < 0
  · simp only [render, intChars, if_pos hneg, List.cons_append, List.append_assoc]
    rw [skipWs_not (by decide)]
    show (parseNatNum (natToDigits n.natAbs ++ rest)).map
      (fun p => (JValue.num (-(p.1 : Int)), p.2)) = some (.num n, rest)
    rw [parseNatNum_digits hrest]
    simp only [Option.map_some']
    have : (-(n.natAbs : Int)) = n := by omega
    rw [this]
  · simp only [render, intChars, if_neg hneg, List.append_assoc]
    obtain ⟨hne, hall, hval⟩ := natToDigits_spec n.natAbs
    cases hh : natToDigits n.natAbs with
    | nil => exact absurd hh hne
    | cons c cs =>
        have hd : c.isDigit = true := hall c (by rw [hh]; exact List.mem_cons_self c cs)
        rw [List.cons_append, skipWs_not (digit_not_ws hd)]
        simp only [if_neg (digit_ne hd 'n' (by decide)), if_neg (digit_ne hd 't' (by decide)),
          if_neg (digit_ne hd 'f' (by decide)), if_neg (digit_ne hd '"' (by decide)),
          if_neg (digit_ne hd '[' (by decide)), if_neg (digit_ne hd lbrace (by decide)),
          if_neg (digit_ne hd '-' (by decide)), if_pos hd]
        have hsplit : c :: (cs ++ rest) = natToDigits n.natAbs ++ rest := by
          rw [hh]
          rfl
        rw [hsplit, parseNatNum_digits hrest]
        simp only [Option.map_some']
        have hcast : ((n.natAbs : Int)) = n := by omega
        rw [hcast]

/-- Parsing the rendering of an empty array. -/
theorem prv_arr_nil (f0 : Nat) (d : Nat) (ws rest : List Char)
    (hws : ∀ c ∈ ws, isWsChar c = true) :
    parseVal (f0 + 1) (ws ++ render d (.arr []) ++ rest) = some (.arr [], rest) := by
  simp only [parseVal, List.append_assoc]
  rw [skipWs_append hws]
  simp only [render, List.cons_append, List.nil_append]
  rw [skipWs_not (by decide)]
  rfl

/-- Parsing the rendering of a nonempty array, given its elements parse. -/
theorem prv_arr_cons (f0 : Nat) (d : Nat) (x : JValue) (xs : List JValue)
    (ws rest : List Char) (hws : ∀ c ∈ ws, isWsChar c = true)
    (helems : parseElems f0
      ('\n' :: (renderElems (d + 1) (x :: xs) ++ '\n' :: (indentChars (2 * d) ++ ']' :: rest)))
      = some (x :: xs, rest)) :
    parseVal (f0 + 1) (ws ++ render d (.arr (x :: xs)) ++ rest) =
      some (.arr (x :: xs), rest) := by
  simp only [parseVal, List.append_assoc]
  rw [skipWs_append hws]
  simp only [render, List.cons_append, List.nil_append, List.append_assoc]
  rw [skipWs_not (by decide)]
  obtain ⟨c2, r2, hskip2, hne2, _⟩ :=
    skipWs_elems d x xs ('\n' :: (indentChars (2 * d) ++ ']' :: rest))
  simp only [hskip2, if_neg hne2, helems]
  rfl

/-- Parsing the rendering of an empty object. -/
theorem prv_obj_nil (f0 : Nat) (d : Nat) (ws rest : List Char)
    (hws : ∀ c ∈ ws, isWsChar c = true) :
    parseVal (f0 + 1) (ws ++ render d (.obj []) ++ rest) = some (.obj [], rest) := by
  simp only [parseVal, List.append_assoc]
  rw [skipWs_append hws]
  simp only [render, List.cons_append, List.nil_append]
  rw [skipWs_not (by decide)]
  rfl

theorem skipWs_members (d : Nat) (kv : String × JValue) (fs : List (String × JValue))
    (suffix : List Char) :
    ∃ r2, skipWs ('\n' :: (renderMembers (d + 1) (kv :: fs) ++ suffix)) = '"' :: r2 := by
  cases fs with
  | nil =>
      refine ⟨escListChars kv.1.data ++ '"' :: ':' :: ' ' :: render (d + 1) kv.2 ++ suffix, ?_⟩
      simp only [renderMembers]
      rw [show ('\n' :: ((indentChars (2 * (d + 1)) ++
          '"' :: (escListChars kv.1.data ++ '"' :: ':' :: ' ' :: render (d + 1) kv.2)) ++ suffix)) =
        ('\n' :: indentChars (2 * (d + 1))) ++
          ('"' :: (escListChars kv.1.data ++ '"' :: ':' :: ' ' :: render (d + 1) kv.2 ++ suffix))
          by simp]
      rw [skipWs_append (nl_ind_ws _), skipWs_not (by decide)]
  | cons kw gs =>
      refine ⟨escListChars kv.1.data ++ '"' :: ':' :: ' ' :: render (d + 1) kv.2 ++
        ',' :: '\n' :: renderMembers (d + 1) (kw :: gs) ++ suffix, ?_⟩
      simp only [renderMembers]
      rw [show ('\n' :: ((indentChars (2 * (d + 1)) ++
          '"' :: (escListChars kv.1.data ++ '"' :: ':' :: ' ' :: render (d + 1) kv.2) ++
          ',' :: '\n' :: renderMembers (d + 1) (kw :: gs)) ++ suffix)) =
        ('\n' :: indentChars (2 * (d + 1))) ++
          ('"' :: (escListChars kv.1.data ++ '"' :: ':' :: ' ' :: render (d + 1) kv.2 ++
            ',' :: '\n' :: renderMembers (d + 1) (kw :: gs) ++ suffix))
          by simp]
      rw [skipWs_append (nl_ind_ws _), skipWs_not (by decide)]

/-- Parsing the rendering of a nonempty object with distinct keys, given its members parse. -/
theorem prv_obj_cons (f0 : Nat) (d : Nat) (kv : String × JValue)
    (fs : List (String × JValue)) (ws rest : List Char)
    (hws : ∀ c ∈ ws, isWsChar c = true) (hnd : nodupKeysF (kv :: fs) = true)
    (hmem : parseMembers f0
      ('\n' :: (renderMembers (d + 1) (kv :: fs) ++ '\n' :: (indentChars (2 * d) ++ rbrace :: rest)))
      = some (kv :: fs, rest)) :
    parseVal (f0 + 1) (ws ++ render d (.obj (kv :: fs)) ++ rest) =
      some (.obj (kv :: fs), rest) := by
  simp only [parseVal, List.append_assoc]
  rw [skipWs_append hws]
  simp only [render, List.cons_append, List.nil_append, List.append_assoc]
  rw [skipWs_not (by decide)]
  obtain ⟨r2, hskip2⟩ :=
    skipWs_members d kv fs ('\n' :: (indentChars (2 * d) ++ rbrace :: rest))
  simp only [hskip2, hmem, Option.map_some']
  rw [dedupFields_eq hnd]
  rfl

/-- Parsing a one-element rendered element list, given the element parses. -/
theorem pre_single (f0 : Nat) (d : Nat) (x : JValue) (ws rest : List Char)
    (hws : ∀ c ∈ ws, isWsChar c = true)
    (hval : ∀ ws2 rest2, (∀ c ∈ ws2, isWsChar c = true) → headNotDigitB rest2 = true →
      parseVal f0 (ws2 ++ render (d + 1) x ++ rest2) = some (x, rest2)) :
    parseElems (f0 + 1)
      (ws ++ renderElems (d + 1) [x] ++ '\n' :: indentChars (2 * d) ++ ']' :: rest)
      = some ([x], rest) := by
  simp only [parseElems, renderElems, List.append_assoc, List.cons_append, List.nil_append]
  have hv := hval (ws ++ indentChars (2 * (d + 1)))
    ('\n' :: (indentChars (2 * d) ++ ']' :: rest))
    (mem_ws_append hws indentChars_ws) rfl
  simp only [List.append_assoc] at hv
  have hskip3 : skipWs ('\n' :: (indentChars (2 * d) ++ ']' :: rest)) = ']' :: rest := by
    rw [show ('\n' :: (indentChars (2 * d) ++ ']' :: rest)) =
      ('\n' :: indentChars (2 * d)) ++ (']' :: rest) by simp]
    rw [skipWs_append (nl_ind_ws _), skipWs_not (by decide)]
  simp only [hv, hskip3]
  rfl

/-- Parsing a rendered element list of two or more, given head and tail parse. -/
theorem pre_cons (f0 : Nat) (d : Nat) (x y : JValue) (ys : List JValue)
    (ws rest : List Char) (hws : ∀ c ∈ ws, isWsChar c = true)
    (hval : ∀ ws2 rest2, (∀ c ∈ ws2, isWsChar c = true) → headNotDigitB rest2 = true →
      parseVal f0 (ws2 ++ render (d + 1) x ++ rest2) = some (x, rest2))
    (helems : ∀ ws2, (∀ c ∈ ws2, isWsChar c = true) →
      parseElems f0 (ws2 ++ renderElems (d + 1) (y :: ys) ++ '\n' :: indentChars (2 * d) ++ ']' :: rest)
        = some (y :: ys, rest)) :
    parseElems (f0 + 1)
      (ws ++ renderElems (d + 1) (x :: y :: ys) ++ '\n' :: indentChars (2 * d) ++ ']' :: rest)
      = some (x :: y :: ys, rest) := by
  simp only [parseElems, renderElems, List.append_assoc, List.cons_append, List.nil_append]
  have hv := hval (ws ++ indentChars (2 * (d + 1)))
    (',' :: '\n' :: (renderElems (d + 1) (y :: ys) ++ '\n' :: (indentChars (2 * d) ++ ']' :: rest)))
    (mem_ws_append hws indentChars_ws) rfl
  simp only [List.append_assoc] at hv
  have he := helems ['\n'] (by intro c hc; simp at hc; rw [hc]; decide)
  simp only [List.append_assoc, List.cons_append, List.nil_append] at he
  have hskip4 : skipWs (',' :: '\n' :: (renderElems (d + 1) (y :: ys) ++
      '\n' :: (indentChars (2 * d) ++ ']' :: rest))) =
      ',' :: '\n' :: (renderElems (d + 1) (y :: ys) ++
      '\n' :: (indentChars (2 * d) ++ ']' :: rest)) := skipWs_not (by decide) _
  simp only [hv, hskip4, he]
  rfl
/-- Parsing a one-member rendered member list, given the value parses. -/
theorem prm_single (f0 : Nat) (d : Nat) (k : String) (v : JValue)
    (ws rest : List Char) (hws : ∀ c ∈ ws, isWsChar c = true)
    (hval : ∀ ws2 rest2, (∀ c ∈ ws2, isWsChar c = true) → headNotDigitB rest2 = true →
      parseVal f0 (ws2 ++ render (d + 1) v ++ rest2) = some (v, rest2)) :
    parseMembers (f0 + 1)
      (ws ++ renderMembers (d + 1) [(k, v)] ++ '\n' :: indentChars (2 * d) ++ rbrace :: rest)
      = some ([(k, v)], rest) := by
  simp only [parseMembers, renderMembers, List.append_assoc, List.cons_append, List.nil_append]
  have hsk1 : ∀ T : List Char,
      skipWs (ws ++ (indentChars (2 * (d + 1)) ++ ('"' :: T))) = '"' :: T := by
    intro T
    rw [← List.append_assoc, skipWs_append (mem_ws_append hws indentChars_ws),
      skipWs_not (by decide)]
  have hsk2 : ∀ cs : List Char, skipWs (':' :: cs) = ':' :: cs := skipWs_not (by decide)
  have hv := hval [' '] ('\n' :: (indentChars (2 * d) ++ rbrace :: rest))
    (by intro c hc; simp at hc; rw [hc]; decide) rfl
  simp only [List.append_assoc, List.cons_append, List.nil_append] at hv
  have hsk3 : skipWs ('\n' :: (indentChars (2 * d) ++ rbrace :: rest)) = rbrace :: rest := by
    rw [show ('\n' :: (indentChars (2 * d) ++ rbrace :: rest)) =
      ('\n' :: indentChars (2 * d)) ++ (rbrace :: rest) by simp]
    rw [skipWs_append (nl_ind_ws _), skipWs_not (by decide)]
  simp only [hsk1, parseStringBody_escape, hsk2, hv, hsk3]
  rfl

/-- Parsing a rendered member list of two or more, given head value and tail parse. -/
theorem prm_cons (f0 : Nat) (d : Nat) (k : String) (v : JValue)
    (kw : String × JValue) (fs : List (String × JValue))
    (ws rest : List Char) (hws : ∀ c ∈ ws, isWsChar c = true)
    (hval : ∀ ws2 rest2, (∀ c ∈ ws2, isWsChar c = true) → headNotDigitB rest2 = true →
      parseVal f0 (ws2 ++ render (d + 1) v ++ rest2) = some (v, rest2))
    (hmembers : ∀ ws2, (∀ c ∈ ws2, isWsChar c = true) →
      parseMembers f0 (ws2 ++ renderMembers (d + 1) (kw :: fs) ++ '\n' :: indentChars (2 * d) ++ rbrace :: rest)
        = some (kw :: fs, rest)) :
    parseMembers (f0 + 1)
      (ws ++ renderMembers (d + 1) ((k, v) :: kw :: fs) ++ '\n' :: indentChars (2 * d) ++ rbrace :: rest)
      = some ((k, v) :: kw :: fs, rest) := by
  simp only [parseMembers, renderMembers, List.append_assoc, List.cons_append, List.nil_append]
  have hsk1 : ∀ T : List Char,
      skipWs (ws ++ (indentChars (2 * (d + 1)) ++ ('"' :: T))) = '"' :: T := by
    intro T
    rw [← List.append_assoc, skipWs_append (mem_ws_append hws indentChars_ws),
      skipWs_not (by decide)]
  have hsk2 : ∀ cs : List Char, skipWs (':' :: cs) = ':' :: cs := skipWs_not (by decide)
  have hv := hval [' ']
    (',' :: '\n' :: (renderMembers (d + 1) (kw :: fs) ++ '\n' :: (indentChars (2 * d) ++ rbrace :: rest)))
    (by intro c hc; simp at hc; rw [hc]; decide) rfl
  simp only [List.append_assoc, List.cons_append, List.nil_append] at hv
  have hsk4 : ∀ cs : List Char, skipWs (',' :: cs) = ',' :: cs := skipWs_not (by decide)
  have hm := hmembers ['\n'] (by intro c hc; simp at hc; rw [hc]; decide)
  simp only [List.append_assoc, List.cons_append, List.nil_append] at hm
  simp only [hsk1, parseStringBody_escape, hsk2, hv, hsk4, hm]
  rfl
/-- Parsing the rendering of a boolean. -/
theorem prv_bool (f0 : Nat) (d : Nat) (b : Bool) (ws rest : List Char)
    (hws : ∀ c ∈ ws, isWsChar c = true) :
    parseVal (f0 + 1) (ws ++ render d (.bool b) ++ rest) = some (.bool b, rest) := by
  cases b with
  | true =>
      simp only [parseVal, List.append_assoc]
      rw [skipWs_append hws]
      simp only [render, List.cons_append, List.nil_append]
      rw [skipWs_not (by decide)]
      rfl
  | false =>
      simp only [parseVal, List.append_assoc]
      rw [skipWs_append hws]
      simp only [render, List.cons_append, List.nil_append]
      rw [skipWs_not (by decide)]
      rfl

/-- Round trip of the serializer through the parser, simultaneously for values, element lists and member lists, by induction on a structural size bound. -/
theorem parse_render_aux : ∀ N,
    (∀ v, sizeJ v ≤ N → wfJ v = true → ∀ f0 d ws rest, sizeJ v ≤ f0 →
      (∀ c ∈ ws, isWsChar c = true) → headNotDigitB rest = true →
      parseVal f0 (ws ++ render d v ++ rest) = some (v, rest)) ∧
    (∀ xs, xs ≠ [] → sizeL xs ≤ N → wfL xs = true → ∀ f0 d ws rest, sizeL xs ≤ f0 →
      (∀ c ∈ ws, isWsChar c = true) →
      parseElems f0 (ws ++ renderElems (d + 1) xs ++ '\n' :: indentChars (2 * d) ++ ']' :: rest)
        = some (xs, rest)) ∧
    (∀ fs, fs ≠ [] → sizeF fs ≤ N → wfF fs = true → ∀ f0 d ws rest, sizeF fs ≤ f0 →
      (∀ c ∈ ws, isWsChar c = true) →
      parseMembers f0 (ws ++ renderMembers (d + 1) fs ++ '\n' :: indentChars (2 * d) ++ rbrace :: rest)
        = some (fs, rest)) := by
  intro N
  induction N with
  | zero =>
      refine ⟨?_, ?_, ?_⟩
      · intro v hv; have := sizeJ_pos v; omega
      · intro xs hne hs; have := sizeL_pos xs; omega
      · intro fs hne hs; have := sizeF_pos fs; omega
  | succ N ih =>
      obtain ⟨ihv, ihe, ihm⟩ := ih
      refine ⟨?_, ?_, ?_⟩
      · intro v hsv hwf f0 d ws rest hf hws hrest
        cases f0 with
        | zero => have := sizeJ_pos v; omega
        | succ f =>
          cases v with
          | null => exact prv_null f d ws rest hws
          | bool b => exact prv_bool f d b ws rest hws
          | num n => exact prv_num f d n ws rest hws hrest
          | str s => exact prv_str f d s ws rest hws
          | arr xs =>
              cases xs with
              | nil => exact prv_arr_nil f d ws rest hws
              | cons x xs2 =>
                  have hsz : sizeL (x :: xs2) ≤ N := by simp only [sizeJ] at hsv; omega
                  have hszf : sizeL (x :: xs2) ≤ f := by simp only [sizeJ] at hf; omega
                  have hwl : wfL (x :: xs2) = true := by simpa [wfJ] using hwf
                  have he := ihe (x :: xs2) (by simp) hsz hwl f d ['\n'] rest hszf
                    (by intro c hc; simp at hc; rw [hc]; decide)
                  simp only [List.append_assoc, List.cons_append, List.nil_append] at he
                  exact prv_arr_cons f d x xs2 ws rest hws he
          | obj fs =>
              cases fs with
              | nil => exact prv_obj_nil f d ws rest hws
              | cons kv fs2 =>
                  have hsz : sizeF (kv :: fs2) ≤ N := by simp only [sizeJ] at hsv; omega
                  have hszf : sizeF (kv :: fs2) ≤ f := by simp only [sizeJ] at hf; omega
                  have hwm : wfF (kv :: fs2) = true := by simpa [wfJ] using hwf
                  have hm := ihm (kv :: fs2) (by simp) hsz hwm f d ['\n'] rest hszf
                    (by intro c hc; simp at hc; rw [hc]; decide)
                  simp only [List.append_assoc, List.cons_append, List.nil_append] at hm
                  exact prv_obj_cons f d kv fs2 ws rest hws (wfF_nodupKeys hwm) hm
      · intro xs hne hsx hwl f0 d ws rest hf hws
        cases f0 with
        | zero => have := sizeL_pos xs; omega
        | succ f =>
          cases xs with
          | nil => exact absurd rfl hne
          | cons x ys =>
            simp only [wfL, Bool.and_eq_true] at hwl
            cases ys with
            | nil =>
                have hszN : sizeJ x ≤ N := by simp only [sizeL] at hsx; omega
                have hszf : sizeJ x ≤ f := by simp only [sizeL] at hf; omega
                have hval : ∀ ws2 rest2, (∀ c ∈ ws2, isWsChar c = true) →
                    headNotDigitB rest2 = true →
                    parseVal f (ws2 ++ render (d + 1) x ++ rest2) = some (x, rest2) :=
                  fun ws2 rest2 hws2 hr2 => ihv x hszN hwl.1 f (d + 1) ws2 rest2 hszf hws2 hr2
                exact pre_single f d x ws rest hws hval
            | cons y ys2 =>
                have hszN : sizeJ x ≤ N := by simp only [sizeL] at hsx; omega
                have hszf : sizeJ x ≤ f := by simp only [sizeL] at hf; omega
                have hszN2 : sizeL (y :: ys2) ≤ N := by
                  simp only [sizeL] at hsx ⊢
                  have := sizeJ_pos x
                  omega
                have hszf2 : sizeL (y :: ys2) ≤ f := by
                  simp only [sizeL] at hf ⊢
                  have := sizeJ_pos x
                  omega
                have hval : ∀ ws2 rest2, (∀ c ∈ ws2, isWsChar c = true) →
                    headNotDigitB rest2 = true →
                    parseVal f (ws2 ++ render (d + 1) x ++ rest2) = some (x, rest2) :=
                  fun ws2 rest2 hws2 hr2 => ihv x hszN hwl.1 f (d + 1) ws2 rest2 hszf hws2 hr2
                have helems : ∀ ws2, (∀ c ∈ ws2, isWsChar c = true) →
                    parseElems f (ws2 ++ renderElems (d + 1) (y :: ys2) ++
                      '\n' :: indentChars (2 * d) ++ ']' :: rest) = some (y :: ys2, rest) :=
                  fun ws2 hws2 => ihe (y :: ys2) (by simp) hszN2 hwl.2 f d ws2 rest hszf2 hws2
                exact pre_cons f d x y ys2 ws rest hws hval helems
      · intro fs hne hsx hwm f0 d ws rest hf hws
        cases f0 with
        | zero => have := sizeF_pos fs; omega
        | succ f =>
          cases fs with
          | nil => exact absurd rfl hne
          | cons kv gs =>
            obtain ⟨k, v⟩ := kv
            simp only [wfF, Bool.and_eq_true] at hwm
            cases gs with
            | nil =>
                have hszN : sizeJ v ≤ N := by simp only [sizeF] at hsx; omega
                have hszf : sizeJ v ≤ f := by simp only [sizeF] at hf; omega
                have hval : ∀ ws2 rest2, (∀ c ∈ ws2, isWsChar c = true) →
                    headNotDigitB rest2 = true →
                    parseVal f (ws2 ++ render (d + 1) v ++ rest2) = some (v, rest2) :=
                  fun ws2 rest2 hws2 hr2 => ihv v hszN hwm.1.2 f (d + 1) ws2 rest2 hszf hws2 hr2
                exact prm_single f d k v ws rest hws hval
            | cons kw gs2 =>
                have hszN : sizeJ v ≤ N := by simp only [sizeF] at hsx; omega
                have hszf : sizeJ v ≤ f := by simp only [sizeF] at hf; omega
                have hszN2 : sizeF (kw :: gs2) ≤ N := by
                  simp only [sizeF] at hsx ⊢
                  have := sizeJ_pos v
                  omega
                have hszf2 : sizeF (kw :: gs2) ≤ f := by
                  simp only [sizeF] at hf ⊢
                  have := sizeJ_pos v
                  omega
                have hval : ∀ ws2 rest2, (∀ c ∈ ws2, isWsChar c = true) →
                    headNotDigitB rest2 = true →
                    parseVal f (ws2 ++ render (d + 1) v ++ rest2) = some (v, rest2) :=
                  fun ws2 rest2 hws2 hr2 => ihv v hszN hwm.1.2 f (d + 1) ws2 rest2 hszf hws2 hr2
                have hmembers : ∀ ws2, (∀ c ∈ ws2, isWsChar c = true) →
                    parseMembers f (ws2 ++ renderMembers (d + 1) (kw :: gs2) ++
                      '\n' :: indentChars (2 * d) ++ rbrace :: rest) = some (kw :: gs2, rest) :=
                  fun ws2 hws2 => ihm (kw :: gs2) (by simp) hszN2 hwm.2 f d ws2 rest hszf2 hws2
                exact prm_cons f d k v kw gs2 ws rest hws hval hmembers

/-- JSON.parse recovers any well-formed value from its JSON.stringify(v, null, 2) text. -/
theorem parse_render {v : JValue} (h : wfJ v = true) :
    parseJson (stringify2 v) = some v := by
  have hb := (size_le_render (sizeJ v)).1 v le_rfl 0
  have hpv := (parse_render_aux (sizeJ v)).1 v le_rfl h ((render 0 v).length + 2) 0 [] []
    (by omega) (by intro c hc; cases hc) rfl
  simp only [List.nil_append, List.append_nil] at hpv
  show (match parseVal ((String.mk (render 0 v)).data.length + 2) (String.mk (render 0 v)).data with
    | some (v, r) => if (skipWs r).isEmpty then some v else none
    | none => none) = some v
  simp only [String.data]
  rw [hpv]
  rfl

theorem hasKeyB_iff {fs : List (String × JValue)} {k : String} :
    hasKeyB fs k = true ↔ k ∈ fs.map Prod.fst := by
  simp only [hasKeyB, List.any_eq_true, List.mem_map, beq_iff_eq]

theorem nodupKeysF_iff : ∀ fs : List (String × JValue),
    nodupKeysF fs = true ↔ (fs.map Prod.fst).Nodup := by
  intro fs
  induction fs with
  | nil => simp [nodupKeysF]
  | cons kv fs ih =>
      simp only [nodupKeysF, Bool.and_eq_true, Bool.not_eq_true', List.map_cons,
        List.nodup_cons, ih]
      constructor
      · rintro ⟨h1, h2⟩
        refine ⟨fun hm => ?_, h2⟩
        rw [hasKeyB_iff.mpr hm] at h1
        cases h1
      · rintro ⟨h1, h2⟩
        refine ⟨?_, h2⟩
        cases hh : hasKeyB fs kv.1 with
        | false => rfl
        | true => exact absurd (hasKeyB_iff.mp hh) h1

theorem objGet_hasKeyB {fs : List (String × JValue)} {k : String} {v : JValue}
    (h : objGet fs k = some v) : hasKeyB fs k = true :=
  hasKeyB_iff.mpr (objGet_mem_keys h)

theorem hasKeyB_filter_false {p : String × JValue → Bool} {fs : List (String × JValue)}
    {k : String} (h : hasKeyB fs k = false) : hasKeyB (fs.filter p) k = false := by
  cases hf : hasKeyB (fs.filter p) k with
  | false => rfl
  | true =>
      obtain ⟨kv, hm, hk⟩ := List.mem_map.mp (hasKeyB_iff.mp hf)
      have : hasKeyB fs k = true :=
        hasKeyB_iff.mpr (List.mem_map.mpr ⟨kv, List.mem_of_mem_filter hm, hk⟩)
      rw [this] at h
      cases h

theorem wfF_filter (p : String × JValue → Bool) :
    ∀ {fs : List (String × JValue)}, wfF fs = true → wfF (fs.filter p) = true := by
  intro fs
  induction fs with
  | nil => intro _; rfl
  | cons kv fs ih =>
      intro h
      simp only [wfF, Bool.and_eq_true, Bool.not_eq_true'] at h
      rw [List.filter_cons]
      cases hp : p kv with
      | false => exact ih h.2
      | true =>
          simp only [if_pos rfl, wfF, Bool.and_eq_true, Bool.not_eq_true']
          exact ⟨⟨hasKeyB_filter_false h.1.1, h.1.2⟩, ih h.2⟩

theorem wfF_of : ∀ fs : List (String × JValue), nodupKeysF fs = true →
    (∀ kv ∈ fs, wfJ kv.2 = true) → wfF fs = true := by
  intro fs
  induction fs with
  | nil => intro _ _; rfl
  | cons kv fs ih =>
      intro hn hv
      simp only [nodupKeysF, Bool.and_eq_true] at hn
      simp only [wfF, Bool.and_eq_true]
      exact ⟨⟨hn.1, hv kv (List.mem_cons_self kv fs)⟩,
        ih hn.2 (fun kw hm => hv kw (List.mem_cons_of_mem kv hm))⟩

theorem rowStep_leaf {r : FieldRow} (h : leafRow r = true) (acc : List (String × JValue)) :
    rowStep acc r = objSet acc (r.key.getD "") r.value := by
  simp only [leafRow, Bool.and_eq_true, Bool.not_eq_true', Bool.or_eq_false_iff,
    beq_eq_false_iff_ne] at h
  obtain ⟨⟨hta, hto⟩, hkey⟩ := h
  unfold rowStep
  rw [if_neg (by rintro (h | h) <;> [exact hta h; exact hto h])]
  cases hk : r.key with
  | none => rw [hk] at hkey; cases hkey
  | some k =>
      rw [hk] at hkey
      simp only [keyFalsy, beq_eq_false_iff_ne] at hkey
      simp [if_neg hkey, hk]

theorem rowStep_skip {r : FieldRow} (h : leafRow r = false) (acc : List (String × JValue)) :
    rowStep acc r = acc := by
  unfold rowStep
  by_cases ht : r.type = "array" ∨ r.type = "object"
  · rw [if_pos ht]
  · rw [if_neg ht]
    have htb : (r.type == "array" || r.type == "object") = false := by
      simp only [Bool.or_eq_false_iff, beq_eq_false_iff_ne]
      exact ⟨fun hh => ht (Or.inl hh), fun hh => ht (Or.inr hh)⟩
    have hkf : keyFalsy r.key = true := by
      cases hkc : keyFalsy r.key with
      | true => rfl
      | false =>
          have hlr : leafRow r = true := by simp [leafRow, htb, hkc]
          rw [hlr] at h
          cases h
    cases hk : r.key with
    | none => rfl
    | some k =>
        rw [hk] at hkf
        simp only [keyFalsy, beq_iff_eq] at hkf
        simp [hkf]

theorem buildFold_filter : ∀ (rows : List FieldRow) (acc : List (String × JValue)),
    (∀ r ∈ rows, leafRow r = true → hasKeyB acc (r.key.getD "") = false) →
    ((rows.filter leafRow).map (fun r => r.key.getD "")).Nodup →
    rows.foldl rowStep acc = acc ++ (rows.filter leafRow).map rowEntry := by
  intro rows
  induction rows with
  | nil => intro acc _ _; simp
  | cons r rows ih =>
      intro acc hfresh hnd
      simp only [List.foldl_cons]
      cases hr : leafRow r with
      | false =>
          rw [rowStep_skip hr]
          have hfc : (r :: rows).filter leafRow = rows.filter leafRow := by
            simp [List.filter_cons, hr]
          rw [hfc] at hnd
          rw [hfc]
          exact ih acc (fun r2 h2 => hfresh r2 (List.mem_cons_of_mem r h2)) hnd
      | true =>
          have hk := hfresh r (List.mem_cons_self r rows) hr
          rw [rowStep_leaf hr, objSet_fresh hk]
          have hfc : (r :: rows).filter leafRow = r :: rows.filter leafRow := by
            simp [List.filter_cons, hr]
          rw [hfc] at hnd
          simp only [List.map_cons, List.nodup_cons] at hnd
          obtain ⟨hnotin, hnd2⟩ := hnd
          have hfresh2 : ∀ r2 ∈ rows, leafRow r2 = true →
              hasKeyB (acc ++ [(r.key.getD "", r.value)]) (r2.key.getD "") = false := by
            intro r2 h2 hl2
            rw [hasKeyB_append]
            have h1 : hasKeyB acc (r2.key.getD "") = false :=
              hfresh r2 (List.mem_cons_of_mem r h2) hl2
            have hne : r.key.getD "" ≠ r2.key.getD "" := by
              intro he
              have hmem : r2.key.getD "" ∈ (rows.filter leafRow).map (fun r => r.key.getD "") :=
                List.mem_map.mpr ⟨r2, List.mem_filter.mpr ⟨h2, hl2⟩, rfl⟩
              rw [← he] at hmem
              exact hnotin hmem
            have h2k : hasKeyB [(r.key.getD "", r.value)] (r2.key.getD "") = false := by
              simp only [hasKeyB, List.any_cons, List.any_nil, Bool.or_false]
              simp [hne]
            rw [h1, h2k]
            rfl
          rw [ih (acc ++ [(r.key.getD "", r.value)]) hfresh2 hnd2, hfc, List.map_cons,
            List.append_assoc]
          rfl

theorem keys_rowsOfObject : ∀ l : List (String × JValue),
    (rowsOfObject l).map (fun r => r.key.getD "") = l.map Prod.fst := by
  intro l
  induction l with
  | nil => rfl
  | cons kv l ih => simp [rowsOfObject, ih]

theorem rowEntry_rowsOfObject : ∀ l : List (String × JValue),
    (rowsOfObject l).map rowEntry = l := by
  intro l
  induction l with
  | nil => rfl
  | cons kv l ih =>
      show rowEntry ⟨some kv.1, kv.2, scalarTypeName kv.2⟩ :: (rowsOfObject l).map rowEntry
        = kv :: l
      rw [ih]
      rfl

theorem filter_leafRow_rows : ∀ tf : List (String × JValue),
    (rowsOfObject tf).filter leafRow =
      rowsOfObject (tf.filter (fun kv => isLeaf kv.2 && !(kv.1 == ""))) := by
  intro tf
  induction tf with
  | nil => rfl
  | cons kv tf ih =>
      obtain ⟨k0, v0⟩ := kv
      have hleaf : leafRow ⟨some k0, v0, scalarTypeName v0⟩ = (isLeaf v0 && !(k0 == "")) := by
        cases v0 <;> simp [leafRow, keyFalsy, scalarTypeName, isLeaf]
      show (⟨some k0, v0, scalarTypeName v0⟩ :: rowsOfObject tf).filter leafRow = _
      rw [List.filter_cons, hleaf, List.filter_cons]
      cases hb : (isLeaf v0 && !(k0 == "")) with
      | false => simpa [hb] using ih
      | true => simpa [hb, rowsOfObject] using ih

theorem build_rowsOfObject {tf : List (String × JValue)} (hnd : nodupKeysF tf = true) :
    buildObjFields (rowsOfObject tf) =
      tf.filter (fun kv => isLeaf kv.2 && !(kv.1 == "")) := by
  have hfilter := filter_leafRow_rows tf
  have hndk : (((rowsOfObject tf).filter leafRow).map (fun r => r.key.getD "")).Nodup := by
    rw [hfilter, keys_rowsOfObject]
    have h1 : (tf.map Prod.fst).Nodup := (nodupKeysF_iff tf).mp hnd
    exact List.Nodup.sublist ((List.filter_sublist tf).map Prod.fst) h1
  have hb := buildFold_filter (rowsOfObject tf) [] (fun _ _ _ => rfl) hndk
  unfold buildObjFields
  rw [hb, hfilter, rowEntry_rowsOfObject]
  simp

theorem mergeFold_id (e : JValue) : ∀ (ks : List String) (acc : List (String × JValue)),
    (∀ k ∈ ks, ∀ v, jsGetKey e k = some v → isLeaf v = true → objGet acc k = some v) →
    ks.foldl (mergeStep e) acc = acc := by
  intro ks
  induction ks with
  | nil => intro acc _; rfl
  | cons k ks ih =>
      intro acc h
      simp only [List.foldl_cons]
      have hstep : mergeStep e acc k = acc := by
        unfold mergeStep
        cases hv : jsGetKey e k with
        | none => rfl
        | some v =>
            cases hl : isLeaf v with
            | false => simp [hl]
            | true => simp [hl, objSet_same (h k (List.mem_cons_self k ks) v hv hl)]
      rw [hstep]
      exact ih acc (fun k2 h2 => h k2 (List.mem_cons_of_mem k h2))

theorem objGet_filter_nodup {p : String × JValue → Bool} :
    ∀ {fs : List (String × JValue)} {k : String} {v : JValue}, nodupKeysF fs = true →
      objGet (fs.filter p) k = some v → objGet fs k = some v := by
  intro fs
  induction fs with
  | nil => intro k v _ h; simp [objGet] at h
  | cons kv fs ih =>
      intro k v hnd h
      simp only [nodupKeysF, Bool.and_eq_true, Bool.not_eq_true'] at hnd
      rw [List.filter_cons] at h
      by_cases hk : kv.1 = k
      · cases hp : p kv with
        | true =>
            rw [if_pos hp] at h
            simp only [objGet, if_pos hk] at h ⊢
            exact h
        | false =>
            have hcond : ¬ (p kv = true) := by simp [hp]
            rw [if_neg hcond] at h
            have hmem := objGet_hasKeyB (ih hnd.2 h)
            rw [hk] at hnd
            rw [hnd.1] at hmem
            exact absurd hmem (by decide)
      · cases hp : p kv with
        | true =>
            rw [if_pos hp] at h
            simp only [objGet, if_neg hk] at h ⊢
            exact ih hnd.2 h
        | false =>
            have hcond : ¬ (p kv = true) := by simp [hp]
            rw [if_neg hcond] at h
            simp only [objGet, if_neg hk]
            exact ih hnd.2 h

theorem mergeLeafKeys_filter (p : String × JValue → Bool)
    {tf : List (String × JValue)} (hnd : nodupKeysF tf = true) :
    mergeLeafKeys tf (.obj (tf.filter p)) = tf := by
  unfold mergeLeafKeys
  apply mergeFold_id
  intro k _ v hv _
  exact objGet_filter_nodup hnd (by simpa [jsGetKey] using hv)

theorem objGet_mem : ∀ {fs : List (String × JValue)} {k : String} {v : JValue},
    objGet fs k = some v → (k, v) ∈ fs := by
  intro fs
  induction fs with
  | nil => intro k v h; simp [objGet] at h
  | cons kv fs ih =>
      intro k v h
      obtain ⟨k0, v0⟩ := kv
      by_cases hk : k0 = k
      · simp only [objGet, if_pos hk] at h
        cases h
        subst hk
        exact List.mem_cons_self _ fs
      · simp only [objGet, if_neg hk] at h
        exact List.mem_cons_of_mem _ (ih h)

theorem wfL_mem : ∀ {xs : List JValue}, wfL xs = true → ∀ v ∈ xs, wfJ v = true := by
  intro xs
  induction xs with
  | nil => intro _ v hv; cases hv
  | cons x xs ih =>
      intro h v hv
      simp only [wfL, Bool.and_eq_true] at h
      rcases List.mem_cons.mp hv with rfl | hv
      · exact h.1
      · exact ih h.2 v hv

theorem getq_mem : ∀ {xs : List JValue} {i : Nat} {x : JValue}, xs[i]? = some x → x ∈ xs := by
  intro xs
  induction xs with
  | nil => intro i x h; simp at h
  | cons y ys ih =>
      intro i x h
      cases i with
      | zero =>
          simp only [List.getElem?_cons_zero, Option.some.injEq] at h
          rw [← h]
          exact List.mem_cons_self y ys
      | succ j =>
          simp only [List.getElem?_cons_succ] at h
          exact List.mem_cons_of_mem y (ih h)

theorem wfJ_jsGetSel {v w : JValue} {sel : JSelector} (hwf : wfJ v = true)
    (h : jsGetSel v sel = some w) : wfJ w = true := by
  cases v with
  | obj fs =>
      simp only [jsGetSel] at h
      exact wfF_values (by simpa [wfJ] using hwf) _ (objGet_mem h)
  | arr xs =>
      have hwl : wfL xs = true := by simpa [wfJ] using hwf
      cases sel with
      | num i =>
          simp only [jsGetSel] at h
          exact wfL_mem hwl w (getq_mem h)
      | str s =>
          simp only [jsGetSel] at h
          cases hc : canonIdx s with
          | none => rw [hc] at h; simp at h
          | some i =>
              rw [hc] at h
              simp only [Option.some_bind] at h
              exact wfL_mem hwl w (getq_mem h)
  | null => simp [jsGetSel] at h
  | bool b => simp [jsGetSel] at h
  | num n => simp [jsGetSel] at h
  | str s => simp [jsGetSel] at h

theorem wf_getAtPath : ∀ (p : List JSelector) (v w : JValue), wfJ v = true →
    getAtPath v p = some w → wfJ w = true := by
  intro p
  induction p with
  | nil =>
      intro v w hwf h
      simp only [getAtPath, Option.some.injEq] at h
      rw [← h]
      exact hwf
  | cons sel p ih =>
      intro v w hwf h
      simp only [getAtPath] at h
      cases hget : jsGetSel v sel with
      | none => rw [hget] at h; simp at h
      | some c =>
          rw [hget] at h
          simp only [Option.some_bind] at h
          exact ih c w (wfJ_jsGetSel hwf hget) h

theorem normalizeNodeData_cons {r : FieldRow} {rs : List FieldRow}
    (h : (rs.isEmpty && keyFalsy r.key) = false) :
    normalizeNodeData (r :: rs) = stringify2 (.obj (buildObjFields (r :: rs))) := by
  simp only [normalizeNodeData, h, Bool.false_eq_true, if_false]

/-- Claim C7: for every non-empty row sequence that is not a lone falsy-key
row, whose row values are well formed and whose eligible keys are distinct,
normalizeNodeData emits exactly the 2-space JSON.stringify text of the mapping
it builds, that text reparses to that very mapping, and the mapping consists
of exactly the truthy-keyed rows whose type is neither "array" nor "object",
in row order (keyless and empty-keyed rows are skipped, container-typed rows
are excluded). -/
theorem claim_C7 (r : FieldRow) (rs : List FieldRow)
    (hnotlone : ¬(rs.isEmpty = true ∧ keyFalsy r.key = true))
    (hwf : ∀ row ∈ r :: rs, wfJ row.value = true)
    (hkeys : (((r :: rs).filter leafRow).map (fun row => row.key.getD "")).Nodup) :
    normalizeNodeData (r :: rs) = stringify2 (.obj (buildObjFields (r :: rs))) ∧
    parseJson (normalizeNodeData (r :: rs)) = some (.obj (buildObjFields (r :: rs))) ∧
    buildObjFields (r :: rs) = ((r :: rs).filter leafRow).map rowEntry := by
  have h3 : buildObjFields (r :: rs) = ((r :: rs).filter leafRow).map rowEntry := by
    unfold buildObjFields
    exact buildFold_filter (r :: rs) [] (fun _ _ _ => rfl) hkeys
  have hcond : (rs.isEmpty && keyFalsy r.key) = false := by
    cases hcc : rs.isEmpty && keyFalsy r.key with
    | false => rfl
    | true =>
        simp only [Bool.and_eq_true] at hcc
        exact absurd hcc hnotlone
  have h1 := normalizeNodeData_cons hcond
  have hwfF : wfJ (.obj (buildObjFields (r :: rs))) = true := by
    show wfF (buildObjFields (r :: rs)) = true
    rw [h3]
    apply wfF_of
    · rw [nodupKeysF_iff, List.map_map]
      have hcomp : (Prod.fst ∘ rowEntry) = (fun row : FieldRow => row.key.getD "") := rfl
      rw [hcomp]
      exact hkeys
    · intro kv hm
      obtain ⟨row, hrow, hent⟩ := List.mem_map.mp hm
      rw [← hent]
      exact hwf row (List.mem_of_mem_filter hrow)
  refine ⟨h1, ?_, h3⟩
  rw [h1]
  exact parse_render hwfF

theorem claim_C7_witness :
    normalizeNodeData [⟨some "a", .num 1, "number"⟩, ⟨some "b", .arr [.num 2], "array"⟩,
        ⟨none, .str "s", "string"⟩, ⟨some "c", .str "hi", "string"⟩] =
      stringify2 (.obj (buildObjFields [⟨some "a", .num 1, "number"⟩,
        ⟨some "b", .arr [.num 2], "array"⟩, ⟨none, .str "s", "string"⟩,
        ⟨some "c", .str "hi", "string"⟩])) ∧
    parseJson (normalizeNodeData [⟨some "a", .num 1, "number"⟩,
        ⟨some "b", .arr [.num 2], "array"⟩, ⟨none, .str "s", "string"⟩,
        ⟨some "c", .str "hi", "string"⟩]) =
      some (.obj (buildObjFields [⟨some "a", .num 1, "number"⟩,
        ⟨some "b", .arr [.num 2], "array"⟩, ⟨none, .str "s", "string"⟩,
        ⟨some "c", .str "hi", "string"⟩])) ∧
    buildObjFields [⟨some "a", .num 1, "number"⟩, ⟨some "b", .arr [.num 2], "array"⟩,
        ⟨none, .str "s", "string"⟩, ⟨some "c", .str "hi", "string"⟩] =
      (([⟨some "a", .num 1, "number"⟩, ⟨some "b", .arr [.num 2], "array"⟩,
        ⟨none, .str "s", "string"⟩,
        ⟨some "c", .str "hi", "string"⟩] : List FieldRow).filter leafRow).map rowEntry :=
  claim_C7 ⟨some "a", .num 1, "number"⟩
    [⟨some "b", .arr [.num 2], "array"⟩, ⟨none, .str "s", "string"⟩,
     ⟨some "c", .str "hi", "string"⟩]
    (by decide) (by decide) (by decide)

/-- Claim C4 (amended): the normalize-then-merge-back round trip is the
identity on the document tree whenever the re-read node is an object — empty
or not, empty-string keys included — other than a single-field object whose
one key is the empty string (such a node normalizes to the bare value text
like a keyless scalar row): updating at the same non-empty path serializes
the unchanged tree and the result reparses to the pre-merge tree. The
original unrestricted claim fails for scalar-valued nodes, whose bare text
can reparse as a different JSON value (see the counterexample, where the
string "5" comes back as the number 5). -/
theorem claim_C4 (s : String) (t : JValue) (p : List JSelector)
    (tf : List (String × JValue))
    (hparse : parseJson s = some t) (hwf : wfJ t = true) (hp : p ≠ [])
    (hslot : getAtPath t p = some (.obj tf))
    (hlone : tf.map Prod.fst ≠ [""]) :
    updateJsonByPath s p (parseEditedValue (normalizeNodeData (rowsOfValue (.obj tf))))
      = stringify2 t ∧
    parseJson (updateJsonByPath s p
      (parseEditedValue (normalizeNodeData (rowsOfValue (.obj tf))))) = some t := by
  have hwfo : wfJ (.obj tf) = true := wf_getAtPath p t (.obj tf) hwf hslot
  have hwfF : wfF tf = true := hwfo
  have hnd : nodupKeysF tf = true := wfF_nodupKeys hwfF
  have hedit : parseEditedValue (normalizeNodeData (rowsOfValue (.obj tf)))
      = .obj (tf.filter (fun kv => isLeaf kv.2 && !(kv.1 == ""))) := by
    cases tf with
    | nil => decide
    | cons kv0 tf2 =>
        have hnorm : normalizeNodeData (rowsOfObject (kv0 :: tf2)) =
            stringify2 (.obj (buildObjFields (rowsOfObject (kv0 :: tf2)))) := by
          show normalizeNodeData
            (⟨some kv0.1, kv0.2, scalarTypeName kv0.2⟩ :: rowsOfObject tf2) = _
          apply normalizeNodeData_cons
          show ((rowsOfObject tf2).isEmpty && keyFalsy (some kv0.1)) = false
          cases tf2 with
          | nil =>
              have hk0 : kv0.1 ≠ "" := by
                intro h
                apply hlone
                simp [h]
              simp [rowsOfObject, keyFalsy, hk0]
          | cons kv1 tf3 => simp [rowsOfObject]
        rw [show rowsOfValue (.obj (kv0 :: tf2)) = rowsOfObject (kv0 :: tf2) from rfl,
          hnorm, build_rowsOfObject hnd]
        unfold parseEditedValue
        rw [parse_render (show wfJ (.obj ((kv0 :: tf2).filter
          (fun kv => isLeaf kv.2 && !(kv.1 == "")))) = true from wfF_filter _ hwfF)]
  have hmerge := mergeLeafKeys_filter (fun kv => isLeaf kv.2 && !(kv.1 == "")) hnd
  rcases List.eq_nil_or_concat p with rfl | ⟨pre, last, rfl⟩
  · exact absurd rfl hp
  · simp only [List.concat_eq_append] at hslot ⊢
    rw [getAtPath_append] at hslot
    cases hpar : getAtPath t pre with
    | none => rw [hpar] at hslot; simp at hslot
    | some parent =>
        rw [hpar] at hslot
        simp only [Option.some_bind, getAtPath] at hslot
        cases hsel : jsGetSel parent last with
        | none => rw [hsel] at hslot; simp at hslot
        | some w =>
            rw [hsel] at hslot
            simp only [Option.some_bind, Option.some.injEq] at hslot
            subst hslot
            have hfin := @finalAssign_merge parent last tf hsel
              (.obj (tf.filter (fun kv => isLeaf kv.2 && !(kv.1 == "")))) rfl
            rw [hmerge, setJ_same hsel] at hfin
            obtain ⟨hupd, _⟩ :=
              update_at_parent s t parent pre last _ parent hparse hpar hfin
            rw [setPath_same pre t parent hpar] at hupd
            rw [hedit]
            exact ⟨hupd, by rw [hupd]; exact parse_render hwf⟩

theorem claim_C4_counterexample :
    getAtPath (.obj [("x", .str "5")]) [.str "x"] = some (.str "5") ∧
    parseJson (stringify2 (.obj [("x", .str "5")])) = some (.obj [("x", .str "5")]) ∧
    parseJson (updateJsonByPath (stringify2 (.obj [("x", .str "5")])) [.str "x"]
        (parseEditedValue (normalizeNodeData (rowsOfValue (.str "5"))))) =
      some (.obj [("x", .num 5)]) ∧
    JValue.obj [("x", .num 5)] ≠ .obj [("x", .str "5")] := by
  decide

theorem claim_C4_witness :
    updateJsonByPath (stringify2 (.obj [("x", .obj [("a", .num 1), ("n", .obj [])])]))
        [.str "x"]
        (parseEditedValue (normalizeNodeData
          (rowsOfValue (.obj [("a", .num 1), ("n", .obj [])])))) =
      stringify2 (.obj [("x", .obj [("a", .num 1), ("n", .obj [])])]) ∧
    parseJson (updateJsonByPath
        (stringify2 (.obj [("x", .obj [("a", .num 1), ("n", .obj [])])])) [.str "x"]
        (parseEditedValue (normalizeNodeData
          (rowsOfValue (.obj [("a", .num 1), ("n", .obj [])]))))) =
      some (.obj [("x", .obj [("a", .num 1), ("n", .obj [])])]) :=
  claim_C4 (stringify2 (.obj [("x", .obj [("a", .num 1), ("n", .obj [])])]))
    (.obj [("x", .obj [("a", .num 1), ("n", .obj [])])]) [.str "x"]
    [("a", .num 1), ("n", .obj [])]
    (by decide) (by decide) (by decide) (by decide) (by decide)
